import Mathlib

/-!
# MemoryPool

A shallow embedding of `src/MemoryPool.h` (the class template
`MemoryPool<T, BlockSize>`), and theorems about it.

Addresses are natural numbers, `0` is `nullptr`.  Pointer and `size_t`
arithmetic is done modulo `2 ^ wordBits`.  Memory is seen through the one kind
of word the pool itself reads and writes: the pointer stored at an address
(`Slot_::next`, which is also the link in a block header).
-/

set_option linter.unusedVariables false

namespace MemoryPool

/-- The compile-time constants of one instantiation `MemoryPool<T, BlockSize>`
on one platform. -/
structure Config where
  /-- The template argument `BlockSize`. -/
  BlockSize : Nat
  /-- The value of `sizeof(Slot_)`. -/
  slotSize : Nat
  /-- The value of `alignof(Slot_)`. -/
  slotAlign : Nat
  /-- The value of `sizeof(char *)`, which is also `sizeof(Slot_ *)`. -/
  ptrSize : Nat
  /-- The width in bits of `size_t`, `uintptr_t` and of a pointer. -/
  wordBits : Nat

/-- The four data members of a pool object. -/
structure Pool where
  currentBlock_ : Nat
  currentSlot_ : Nat
  lastSlot_ : Nat
  freeSlots_ : Nat
deriving DecidableEq, Repr

/-- The memory the pool works on, together with the record of what the system
allocator handed out. -/
structure Heap where
  /-- The pointer stored at an address (the member `next` of the `Slot_` there). -/
  next : Nat → Nat
  /-- The blocks returned by `::operator new` so far, newest first. -/
  acquired : List Nat

/-- The system allocator: `sysNew i` is what the call number `i` (counted from
zero) of `::operator new(BlockSize)` returns, `none` when it throws. -/
abbrev SysNew := Nat → Option Nat

/-- Reduction of a value to the machine word. -/
def wrap (cfg : Config) (x : Nat) : Nat := x % 2 ^ cfg.wordBits

/-- Addition of machine words. -/
def addW (cfg : Config) (a b : Nat) : Nat := wrap cfg (a + b)

/-- Subtraction of machine words, with unsigned wrap-around. -/
def subW (cfg : Config) (a b : Nat) : Nat :=
  wrap cfg (wrap cfg a + 2 ^ cfg.wordBits - wrap cfg b)

/-- Writing the pointer `v` at address `a`. -/
def store (next : Nat → Nat) (a v : Nat) : Nat → Nat :=
  fun x => if x = a then v else next x

/-- The function `padPointer(p, align)`: `(align - addr) % align` in `size_t`. -/
def padPointer (cfg : Config) (p align : Nat) : Nat :=
  let addr := wrap cfg p
  let padding := subW cfg align addr % align
  padding

/-- The default constructor `MemoryPool()`: all four members are `nullptr`. -/
def defaultConstruct : Pool :=
  { currentBlock_ := 0, currentSlot_ := 0, lastSlot_ := 0, freeSlots_ := 0 }

/-- The function `allocateBlock()`; `none` when `::operator new` throws. -/
def allocateBlock (cfg : Config) (sysNew : SysNew) (pool : Pool) (heap : Heap) :
    Option (Pool × Heap) :=
  match sysNew heap.acquired.length with
  | none => none
  | some newBlock =>
    let heap1 : Heap :=
      { next := store heap.next newBlock pool.currentBlock_,
        acquired := newBlock :: heap.acquired }
    let body := addW cfg newBlock cfg.ptrSize
    let bodyPadding := padPointer cfg body cfg.slotAlign
    let lastSlot := addW cfg (subW cfg (addW cfg newBlock cfg.BlockSize) cfg.slotSize) 1
    some ({ currentBlock_ := newBlock,
            currentSlot_ := addW cfg body bodyPadding,
            lastSlot_ := lastSlot,
            freeSlots_ := pool.freeSlots_ }, heap1)

/-- The function `allocate(n, hint)`: the returned address and the state after
the call; `none` when `::operator new` throws. -/
def allocate (cfg : Config) (sysNew : SysNew) (pool : Pool) (heap : Heap)
    (n hint : Nat) : Option (Nat × Pool × Heap) :=
  if pool.freeSlots_ ≠ 0 then
    let result := pool.freeSlots_
    some (result, { pool with freeSlots_ := heap.next pool.freeSlots_ }, heap)
  else
    if pool.currentSlot_ ≥ pool.lastSlot_ then
      match allocateBlock cfg sysNew pool heap with
      | none => none
      | some (pool1, heap1) =>
        some (pool1.currentSlot_,
          { pool1 with currentSlot_ := addW cfg pool1.currentSlot_ cfg.slotSize }, heap1)
    else
      some (pool.currentSlot_,
        { pool with currentSlot_ := addW cfg pool.currentSlot_ cfg.slotSize }, heap)

/-- The function `deallocate(p, n)`. -/
def deallocate (pool : Pool) (heap : Heap) (p n : Nat) : Pool × Heap :=
  if p ≠ 0 then
    ({ pool with freeSlots_ := p }, { heap with next := store heap.next p pool.freeSlots_ })
  else
    (pool, heap)

/-- The function `deleteElement(p)`; `dtor p` is the effect of `p->~T()` on the
memory. -/
def deleteElement (dtor : Nat → Heap → Heap) (pool : Pool) (heap : Heap) (p : Nat) :
    Pool × Heap :=
  if p ≠ 0 then
    deallocate pool (dtor p heap) p 1
  else
    (pool, heap)

/-- The function `max_size()`. -/
def max_size (cfg : Config) (_pool : Pool) : Nat :=
  let max_block := wrap cfg (2 ^ cfg.wordBits - 1) / cfg.BlockSize
  wrap cfg (subW cfg cfg.BlockSize cfg.ptrSize / cfg.slotSize * max_block)

/-- The copy constructor `MemoryPool(const MemoryPool &other)`: the new pool and
the source after the call. -/
def copyConstruct (other : Pool) : Pool × Pool :=
  (defaultConstruct, other)

/-- The move constructor `MemoryPool(MemoryPool &&other)`: the new pool and the
source after the call. -/
def moveConstruct (other : Pool) : Pool × Pool :=
  let this := defaultConstruct
  -- swap(currentBlock_, other.currentBlock_)
  let (this, other) := ({ this with currentBlock_ := other.currentBlock_ },
                        { other with currentBlock_ := this.currentBlock_ })
  -- other.currentBlock_ = nullptr
  let other := { other with currentBlock_ := 0 }
  -- swap(currentSlot_, other.currentSlot_)
  let (this, other) := ({ this with currentSlot_ := other.currentSlot_ },
                        { other with currentSlot_ := this.currentSlot_ })
  -- swap(lastSlot_, other.lastSlot_)
  let (this, other) := ({ this with lastSlot_ := other.lastSlot_ },
                        { other with lastSlot_ := this.lastSlot_ })
  -- swap(freeSlots_, other.freeSlots_)
  let (this, other) := ({ this with freeSlots_ := other.freeSlots_ },
                        { other with freeSlots_ := this.freeSlots_ })
  (this, other)

/-- The move assignment `operator=(MemoryPool &&other)`.  Pool objects are named
by their addresses `this` and `other`; `objs` gives the members of each. -/
def moveAssign (objs : Nat → Pool) (this other : Nat) : Nat → Pool :=
  if this ≠ other then
    let t := objs this
    let o := objs other
    -- std::swap(currentBlock_, other.currentBlock_)
    let t1 := { t with currentBlock_ := o.currentBlock_ }
    let o1 := { o with currentBlock_ := t.currentBlock_ }
    let t2 := { t1 with currentSlot_ := o1.currentSlot_ }
    let t3 := { t2 with lastSlot_ := o1.lastSlot_ }
    let t4 := { t3 with freeSlots_ := o1.freeSlots_ }
    fun x => if x = this then t4 else if x = other then o1 else objs x
  else
    objs

/-- The loop of the destructor, started at `curr`: the blocks handed to
`::operator delete`, in order; `none` when the fuel runs out first. -/
def destroyWalk (next : Nat → Nat) : Nat → Nat → Option (List Nat)
  | fuel, curr =>
    if curr = 0 then some []
    else
      match fuel with
      | 0 => none
      | fuel + 1 => (destroyWalk next fuel (next curr)).map (fun rel => curr :: rel)

/-- The destructor `~MemoryPool()`. -/
def destructor (fuel : Nat) (pool : Pool) (heap : Heap) : Option (List Nat) :=
  destroyWalk heap.next fuel pool.currentBlock_

/-- Calling `deallocate(p)` for each `p` of a list, in order. -/
def deallocateAll : List Nat → Pool → Heap → Pool × Heap
  | [], pool, heap => (pool, heap)
  | p :: ps, pool, heap =>
    deallocateAll ps (deallocate pool heap p 1).1 (deallocate pool heap p 1).2

/-- Calling `allocate()` `k` times in a row: the addresses returned, in order,
and the state after the last call. -/
def allocateN (cfg : Config) (sysNew : SysNew) : Nat → Pool → Heap →
    Option (List Nat × Pool × Heap)
  | 0, pool, heap => some ([], pool, heap)
  | k + 1, pool, heap =>
    match allocate cfg sysNew pool heap 1 0 with
    | none => none
    | some (p, pool1, heap1) =>
      match allocateN cfg sysNew k pool1 heap1 with
      | none => none
      | some (ps, pool2, heap2) => some (p :: ps, pool2, heap2)

/-- The facts about sizes that hold of every instantiation: a pointer has a
positive size that divides the alignment of `Slot_` (a union with a pointer
member), the alignment divides the size of `Slot_` and is a power of two below
the word, and the `static_assert` on `BlockSize` holds. -/
structure Config.Valid (cfg : Config) : Prop where
  ptr_pos : 0 < cfg.ptrSize
  ptr_dvd_align : cfg.ptrSize ∣ cfg.slotAlign
  align_dvd_size : cfg.slotAlign ∣ cfg.slotSize
  size_pos : 0 < cfg.slotSize
  align_dvd_word : cfg.slotAlign ∣ 2 ^ cfg.wordBits
  block_ge : 2 * cfg.slotSize ≤ cfg.BlockSize
  block_lt : cfg.BlockSize < 2 ^ cfg.wordBits

/-- What is assumed of `::operator new(BlockSize)`: a block it returns is not
null, is aligned for a pointer, ends before the end of the address space, and
does not overlap a block returned by another call. -/
structure SysNew.Valid (cfg : Config) (sysNew : SysNew) : Prop where
  nonnull : ∀ i B, sysNew i = some B → B ≠ 0
  aligned : ∀ i B, sysNew i = some B → cfg.ptrSize ∣ B
  inRange : ∀ i B, sysNew i = some B → B + cfg.BlockSize < 2 ^ cfg.wordBits
  disjoint : ∀ i j B C, i ≠ j → sysNew i = some B → sysNew j = some C →
    B + cfg.BlockSize ≤ C ∨ C + cfg.BlockSize ≤ B

/-- The list `bs` is the chain of non-null addresses met from `head` by
following the stored pointers up to `nullptr`. -/
def chainFrom (next : Nat → Nat) : Nat → List Nat → Prop
  | head, [] => head = 0
  | head, b :: bs => head = b ∧ b ≠ 0 ∧ chainFrom next (next b) bs

/-- The states a pool reaches from a fresh pool by calls of `allocate` and
`deallocate` with arbitrary arguments. -/
inductive Reachable (cfg : Config) (sysNew : SysNew) : Pool → Heap → Prop
  | fresh (heap : Heap) (h : heap.acquired = []) : Reachable cfg sysNew defaultConstruct heap
  | alloc {pool : Pool} {heap : Heap} (n hint : Nat) {p : Nat} {pool1 : Pool} {heap1 : Heap}
      (r : Reachable cfg sysNew pool heap)
      (h : allocate cfg sysNew pool heap n hint = some (p, pool1, heap1)) :
      Reachable cfg sysNew pool1 heap1
  | dealloc {pool : Pool} {heap : Heap} (p n : Nat)
      (r : Reachable cfg sysNew pool heap) :
      Reachable cfg sysNew (deallocate pool heap p n).1 (deallocate pool heap p n).2

/-- The states a pool reaches from a fresh pool when its user keeps to the
contract, with the list of the slots that are live: `deallocate` is only given
a live slot, and the user only writes into live slots. -/
inductive ReachableLive (cfg : Config) (sysNew : SysNew) : Pool → Heap → List Nat → Prop
  | fresh (heap : Heap) (h : heap.acquired = []) :
      ReachableLive cfg sysNew defaultConstruct heap []
  | alloc {pool : Pool} {heap : Heap} {live : List Nat} (n hint : Nat) {p : Nat}
      {pool1 : Pool} {heap1 : Heap}
      (r : ReachableLive cfg sysNew pool heap live)
      (h : allocate cfg sysNew pool heap n hint = some (p, pool1, heap1)) :
      ReachableLive cfg sysNew pool1 heap1 (p :: live)
  | dealloc {pool : Pool} {heap : Heap} {live : List Nat} (p n : Nat)
      (r : ReachableLive cfg sysNew pool heap live) (hp : p ∈ live) :
      ReachableLive cfg sysNew (deallocate pool heap p n).1 (deallocate pool heap p n).2
        (live.erase p)
  | write {pool : Pool} {heap : Heap} {live : List Nat} (p v : Nat)
      (r : ReachableLive cfg sysNew pool heap live) (hp : p ∈ live) :
      ReachableLive cfg sysNew pool { heap with next := store heap.next p v } live

/-- An instantiation with `BlockSize = 64` and 16-byte slots on a 64-bit
platform. -/
def cfg64 : Config :=
  { BlockSize := 64, slotSize := 16, slotAlign := 8, ptrSize := 8, wordBits := 64 }

/-- A system allocator that returns the blocks 4096, 8192, ... and throws from
its call number 1000 on. -/
def sysPages : SysNew := fun i => if i < 1000 then some (4096 * (i + 1)) else none

/-- A memory that holds null pointers only, with no block acquired. -/
def heapZero : Heap := { next := fun _ => 0, acquired := [] }

/-- The first slot of a block at `B`: the header is skipped and the address is
rounded up to the alignment of a slot. -/
def firstSlot (cfg : Config) (B : Nat) : Nat :=
  B + cfg.ptrSize + padPointer cfg (B + cfg.ptrSize) cfg.slotAlign

/-- The slot at `a` lies in the block at `B`, after the header and before the
end of the block. -/
def InBlock (cfg : Config) (B a : Nat) : Prop :=
  B + cfg.ptrSize ≤ a ∧ a + cfg.slotSize ≤ B + cfg.BlockSize

/-- The invariant of a pool used within the contract; `live` lists the live
slots and `fl` the slots of the free list, from its head on. -/
structure Inv (cfg : Config) (sysNew : SysNew) (pool : Pool) (heap : Heap)
    (live fl : List Nat) : Prop where
  log : heap.acquired.reverse.map some = (List.range heap.acquired.length).map sysNew
  blocks : chainFrom heap.next pool.currentBlock_ heap.acquired
  blocksNodup : heap.acquired.Nodup
  free : chainFrom heap.next pool.freeSlots_ fl
  nodup : (live ++ fl).Nodup
  cursorNone : heap.acquired = [] → pool.currentSlot_ = 0 ∧ pool.lastSlot_ = 0
  cursorSome : ∀ B rest, heap.acquired = B :: rest →
    B + cfg.ptrSize ≤ pool.currentSlot_ ∧ pool.currentSlot_ ≤ B + cfg.BlockSize ∧
    pool.lastSlot_ = B + cfg.BlockSize - cfg.slotSize + 1
  slots : ∀ a ∈ live ++ fl, ∃ B ∈ heap.acquired, InBlock cfg B a ∧
    (B = pool.currentBlock_ → a < pool.currentSlot_)

/-- The pointers stored along `qs` lead from `head` through the addresses of
`qs`, none of them null, to `tl`. -/
def linkedTo (next : Nat → Nat) : Nat → List Nat → Nat → Prop
  | head, [], tl => head = tl
  | head, q :: qs, tl => head = q ∧ q ≠ 0 ∧ linkedTo next (next q) qs tl

/-- The pool of `cfg64` after one call of `allocate()` that acquired the block
at 4096. -/
def poolA : Pool :=
  { currentBlock_ := 4096, currentSlot_ := 4120, lastSlot_ := 4145, freeSlots_ := 0 }

/-- The memory after `poolA` acquired its block. -/
def heapA : Heap := { next := store heapZero.next 4096 0, acquired := [4096] }

/-- A second pool of `cfg64` after one call of `allocate()` that acquired the
block at 8192. -/
def poolB : Pool :=
  { currentBlock_ := 8192, currentSlot_ := 8216, lastSlot_ := 8241, freeSlots_ := 0 }

/-- The memory after `poolA` and then `poolB` acquired a block each. -/
def heapAB : Heap := { next := store heapA.next 8192 0, acquired := [8192, 4096] }

/-- The pool `poolA` after a second call of `allocate()`. -/
def poolA2 : Pool := { poolA with currentSlot_ := 4136 }

/-- The pool `poolA` after a third call of `allocate()`. -/
def poolA3 : Pool := { poolA with currentSlot_ := 4152 }

/-- The memory after a fourth call of `allocate()` on `poolA`, which acquires
the block at 8192 and leaves the pool equal to `poolB`. -/
def heapA4 : Heap := { next := store heapA.next 8192 4096, acquired := [8192, 4096] }

/-- The second pool after `deallocate` of its only slot. -/
def poolBf : Pool := (deallocate poolB heapAB 8200 1).1

/-- The memory after the second pool freed its only slot. -/
def heapABf : Heap := (deallocate poolB heapAB 8200 1).2

/-- Two pool objects: `poolA` at address 1 and `poolBf` at address 2. -/
def objsABf : Nat → Pool := fun x => if x = 1 then poolA else if x = 2 then poolBf
  else defaultConstruct

/-- The part of the invariant that holds whatever `deallocate` is given: where
the cursor and the end marker are, relative to the newest block. -/
structure CursorInv (cfg : Config) (sysNew : SysNew) (pool : Pool) (heap : Heap) : Prop where
  log : heap.acquired.reverse.map some = (List.range heap.acquired.length).map sysNew
  cursorNone : heap.acquired = [] →
    pool.currentBlock_ = 0 ∧ pool.currentSlot_ = 0 ∧ pool.lastSlot_ = 0
  cursorSome : ∀ B rest, heap.acquired = B :: rest →
    pool.currentBlock_ = B ∧ pool.lastSlot_ = B + cfg.BlockSize - cfg.slotSize + 1 ∧
    ∃ k, 1 ≤ k ∧ pool.currentSlot_ = firstSlot cfg B + k * cfg.slotSize ∧
      pool.currentSlot_ ≤ B + cfg.BlockSize

/-- The number of slots that the block at `B` yields:
`(BlockSize - P - padding) / S`. -/
def slotsPerBlock (cfg : Config) (B : Nat) : Nat :=
  (cfg.BlockSize - cfg.ptrSize - padPointer cfg (B + cfg.ptrSize) cfg.slotAlign) / cfg.slotSize

/-- The states reached within the contract, as `ReachableLive`, with the list
of the slots issued so far next to the list of the live slots. -/
inductive ReachableTracked (cfg : Config) (sysNew : SysNew) :
    Pool → Heap → List Nat → List Nat → Prop
  | fresh (heap : Heap) (h : heap.acquired = []) :
      ReachableTracked cfg sysNew defaultConstruct heap [] []
  | alloc {pool : Pool} {heap : Heap} {live issued : List Nat} (n hint : Nat) {p : Nat}
      {pool1 : Pool} {heap1 : Heap}
      (r : ReachableTracked cfg sysNew pool heap live issued)
      (h : allocate cfg sysNew pool heap n hint = some (p, pool1, heap1)) :
      ReachableTracked cfg sysNew pool1 heap1 (p :: live) (p :: issued)
  | dealloc {pool : Pool} {heap : Heap} {live issued : List Nat} (p n : Nat)
      (r : ReachableTracked cfg sysNew pool heap live issued) (hp : p ∈ live) :
      ReachableTracked cfg sysNew (deallocate pool heap p n).1 (deallocate pool heap p n).2
        (live.erase p) issued
  | write {pool : Pool} {heap : Heap} {live issued : List Nat} (p v : Nat)
      (r : ReachableTracked cfg sysNew pool heap live issued) (hp : p ∈ live) :
      ReachableTracked cfg sysNew pool { heap with next := store heap.next p v } live issued

/-- The states reached from a fresh pool by calls of `allocate`, by calls of
`deallocate` that are given `nullptr` or an address that `allocate` returned
before (live or not, so a slot may be freed twice), and by the user writing
into a slot it holds; with the list of the slots the user holds and the list
of the addresses returned so far. -/
inductive ReachableReturned (cfg : Config) (sysNew : SysNew) :
    Pool → Heap → List Nat → List Nat → Prop
  | fresh (heap : Heap) (h : heap.acquired = []) :
      ReachableReturned cfg sysNew defaultConstruct heap [] []
  | alloc {pool : Pool} {heap : Heap} {live returned : List Nat} (n hint : Nat) {p : Nat}
      {pool1 : Pool} {heap1 : Heap}
      (r : ReachableReturned cfg sysNew pool heap live returned)
      (h : allocate cfg sysNew pool heap n hint = some (p, pool1, heap1)) :
      ReachableReturned cfg sysNew pool1 heap1 (p :: live) (p :: returned)
  | dealloc {pool : Pool} {heap : Heap} {live returned : List Nat} (p n : Nat)
      (r : ReachableReturned cfg sysNew pool heap live returned)
      (hp : p = 0 ∨ p ∈ returned) :
      ReachableReturned cfg sysNew (deallocate pool heap p n).1 (deallocate pool heap p n).2
        (live.erase p) returned
  | write {pool : Pool} {heap : Heap} {live returned : List Nat} (p v : Nat)
      (r : ReachableReturned cfg sysNew pool heap live returned) (hp : p ∈ live) :
      ReachableReturned cfg sysNew pool { heap with next := store heap.next p v } live returned

/-- The slot at `a` is a whole number of slot sizes after the first slot of the
block at `B` and ends inside this block. -/
def SlotOf (cfg : Config) (B a : Nat) : Prop :=
  ∃ k, a = firstSlot cfg B + k * cfg.slotSize ∧ a + cfg.slotSize ≤ B + cfg.BlockSize

/-- The pool `poolA` after `deallocate(4104)`, once or twice. -/
def poolDF : Pool := { poolA with freeSlots_ := 4104 }

/-- The memory after `poolA` freed the slot at 4104 once. -/
def heapF : Heap := { next := store heapA.next 4104 0, acquired := [4096] }

/-- The memory after `poolA` freed the slot at 4104 a second time: the slot
links to itself. -/
def heapDF : Heap := { next := store heapF.next 4104 4104, acquired := [4096] }

/-- The memory after the user, holding the slot at 4104 again, stored the word
4105 in it. -/
def heapDFw : Heap := { next := store heapDF.next 4104 4105, acquired := [4096] }

/-- The pool after the next `allocate()`, which made 4105 the free-list head. -/
def poolDF2 : Pool := { poolA with freeSlots_ := 4105 }

/-! ## Theorems -/

theorem wrap_of_lt {cfg : Config} {x : Nat} (h : x < 2 ^ cfg.wordBits) : wrap cfg x = x :=
  Nat.mod_eq_of_lt h

theorem addW_of_lt {cfg : Config} {a b : Nat} (h : a + b < 2 ^ cfg.wordBits) :
    addW cfg a b = a + b :=
  Nat.mod_eq_of_lt h

theorem subW_of_le {cfg : Config} {a b : Nat} (h : b ≤ a) (ha : a < 2 ^ cfg.wordBits) :
    subW cfg a b = a - b := by
  have hb : b < 2 ^ cfg.wordBits := lt_of_le_of_lt h ha
  unfold subW
  rw [wrap_of_lt ha, wrap_of_lt hb]
  unfold wrap
  have e : a + 2 ^ cfg.wordBits - b = (a - b) + 2 ^ cfg.wordBits := by omega
  rw [e, Nat.add_mod_right]
  exact Nat.mod_eq_of_lt (by omega)

theorem store_same (next : Nat → Nat) (a v : Nat) : store next a v a = v := by
  simp [store]

theorem store_other (next : Nat → Nat) {a x : Nat} (v : Nat) (h : x ≠ a) :
    store next a v x = next x := by
  simp [store, h]

theorem destroyWalk_null (next : Nat → Nat) (fuel : Nat) : destroyWalk next fuel 0 = some [] := by
  cases fuel <;> simp [destroyWalk]

theorem destroyWalk_step (next : Nat → Nat) (fuel : Nat) {curr : Nat} (h : curr ≠ 0) :
    destroyWalk next (fuel + 1) curr
      = (destroyWalk next fuel (next curr)).map (fun rel => curr :: rel) := by
  rw [destroyWalk]
  simp [h]

theorem destroyWalk_zero_fuel (next : Nat → Nat) {curr : Nat} (h : curr ≠ 0) :
    destroyWalk next 0 curr = none := by
  rw [destroyWalk]
  simp [h]

/-- A write at an address that is not a block of the chain leaves the walk of
the destructor as it was. -/
theorem destroyWalk_store (next : Nat → Nat) (p v : Nat) :
    ∀ (fuel curr : Nat) (bs : List Nat), p ∉ bs → destroyWalk next fuel curr = some bs →
      destroyWalk (store next p v) fuel curr = some bs := by
  intro fuel
  induction fuel with
  | zero =>
    intro curr bs _ h
    by_cases hc : curr = 0
    · subst hc
      rw [destroyWalk_null] at h
      rw [destroyWalk_null]
      exact h
    · rw [destroyWalk_zero_fuel next hc] at h
      cases h
  | succ fuel ih =>
    intro curr bs hp h
    by_cases hc : curr = 0
    · subst hc
      rw [destroyWalk_null] at h
      rw [destroyWalk_null]
      exact h
    · rw [destroyWalk_step next fuel hc] at h
      rw [destroyWalk_step _ fuel hc]
      cases hw : destroyWalk next fuel (next curr) with
      | none => rw [hw] at h; cases h
      | some rel =>
        rw [hw] at h
        simp only [Option.map_some'] at h
        have hbs : bs = curr :: rel := (Option.some.inj h).symm
        subst hbs
        have hne : curr ≠ p := fun e => hp (by simp [e])
        have hrel : p ∉ rel := fun e => hp (List.mem_cons_of_mem _ e)
        rw [store_other next v hne, ih (next curr) rel hrel hw]
        rfl

/-- C2: for every pool state and every non-null pointer `p`, `deallocate(p)`
followed by `allocate()` returns `p`; all four members of the pool (free-list
head, cursor, end marker, head of the block chain) are what they were before
the `deallocate`, no block is acquired, the memory differs at most in the
pointer stored at `p`, and when `p` is a slot and not a block of the chain the
walk along the block chain is the same as before. -/
theorem deallocate_then_allocate (cfg : Config) (sysNew : SysNew) (pool : Pool) (heap : Heap)
    (p n m hint : Nat) (hp : p ≠ 0) :
    ∃ heap1,
      allocate cfg sysNew (deallocate pool heap p n).1 (deallocate pool heap p n).2 m hint
        = some (p, pool, heap1) ∧
      heap1.acquired = heap.acquired ∧
      (∀ a, a ≠ p → heap1.next a = heap.next a) ∧
      (∀ fuel bs, p ∉ bs → destructor fuel pool heap = some bs →
        destructor fuel pool heap1 = some bs) := by
  refine ⟨{ heap with next := store heap.next p pool.freeSlots_ }, ?_, rfl, ?_, ?_⟩
  · simp [deallocate, allocate, hp, store_same]
  · intro a ha
    exact store_other heap.next pool.freeSlots_ ha
  · intro fuel bs hbs h
    exact destroyWalk_store heap.next p pool.freeSlots_ fuel pool.currentBlock_ bs hbs h

theorem deallocate_then_allocate_witness :
    ∃ heap1,
      allocate cfg64 sysPages (deallocate defaultConstruct heapZero 4104 1).1
          (deallocate defaultConstruct heapZero 4104 1).2 1 0
        = some (4104, defaultConstruct, heap1) ∧
      heap1.acquired = heapZero.acquired ∧
      (∀ a, a ≠ 4104 → heap1.next a = heapZero.next a) ∧
      (∀ fuel bs, 4104 ∉ bs → destructor fuel defaultConstruct heapZero = some bs →
        destructor fuel defaultConstruct heap1 = some bs) :=
  deallocate_then_allocate cfg64 sysPages defaultConstruct heapZero 4104 1 1 0 (by decide)

/-- C6: the pool made by the move constructor has the four members the source
had, the source is left with four null members, and the destructor run on the
source releases no block. -/
theorem moveConstruct_transfers (other : Pool) :
    (moveConstruct other).1.currentBlock_ = other.currentBlock_ ∧
    (moveConstruct other).1.currentSlot_ = other.currentSlot_ ∧
    (moveConstruct other).1.lastSlot_ = other.lastSlot_ ∧
    (moveConstruct other).1.freeSlots_ = other.freeSlots_ ∧
    (moveConstruct other).2.currentBlock_ = 0 ∧
    (moveConstruct other).2.currentSlot_ = 0 ∧
    (moveConstruct other).2.lastSlot_ = 0 ∧
    (moveConstruct other).2.freeSlots_ = 0 ∧
    ∀ fuel heap, destructor fuel (moveConstruct other).2 heap = some [] := by
  refine ⟨rfl, rfl, rfl, rfl, rfl, rfl, rfl, rfl, ?_⟩
  intro fuel heap
  exact destroyWalk_null heap.next fuel

/-- C8: the pool made by the copy constructor is the pool the default
constructor makes (four null members, so no block for a destructor to
release), the source is unchanged, and `max_size()` of the copy is that of a
fresh pool. -/
theorem copyConstruct_fresh (cfg : Config) (other : Pool) :
    (copyConstruct other).1 = defaultConstruct ∧
    (copyConstruct other).1.currentBlock_ = 0 ∧
    (copyConstruct other).1.currentSlot_ = 0 ∧
    (copyConstruct other).1.lastSlot_ = 0 ∧
    (copyConstruct other).1.freeSlots_ = 0 ∧
    (∀ fuel heap, destructor fuel (copyConstruct other).1 heap = some []) ∧
    (copyConstruct other).2 = other ∧
    max_size cfg (copyConstruct other).1 = max_size cfg defaultConstruct := by
  refine ⟨rfl, rfl, rfl, rfl, rfl, ?_, rfl, rfl⟩
  intro fuel heap
  exact destroyWalk_null heap.next fuel

/-- C9: when the pointer size is at most the slot size (which, as every
`sizeof`, is positive), `BlockSize` is at least two slot sizes and fits the
word, `max_size()` is
`((BlockSize - P) / S) * ((2 ^ w - 1) / BlockSize)`, this product fits the
word, it is positive, and it is the same for every pool. -/
theorem max_size_formula (cfg : Config) (pool : Pool)
    (hS : 0 < cfg.slotSize) (hPS : cfg.ptrSize ≤ cfg.slotSize)
    (hB : 2 * cfg.slotSize ≤ cfg.BlockSize) (hW : cfg.BlockSize < 2 ^ cfg.wordBits) :
    max_size cfg pool
        = (cfg.BlockSize - cfg.ptrSize) / cfg.slotSize
          * ((2 ^ cfg.wordBits - 1) / cfg.BlockSize) ∧
    (cfg.BlockSize - cfg.ptrSize) / cfg.slotSize * ((2 ^ cfg.wordBits - 1) / cfg.BlockSize)
        < 2 ^ cfg.wordBits ∧
    0 < max_size cfg pool ∧
    ∀ other : Pool, max_size cfg other = max_size cfg pool := by
  have hBpos : 0 < cfg.BlockSize := by omega
  have hsub : subW cfg cfg.BlockSize cfg.ptrSize = cfg.BlockSize - cfg.ptrSize :=
    subW_of_le (by omega) hW
  have hone : wrap cfg (2 ^ cfg.wordBits - 1) = 2 ^ cfg.wordBits - 1 :=
    wrap_of_lt (by omega)
  have h1 : (cfg.BlockSize - cfg.ptrSize) / cfg.slotSize ≤ cfg.BlockSize :=
    le_trans (Nat.div_le_self _ _) (Nat.sub_le _ _)
  have h2 : cfg.BlockSize * ((2 ^ cfg.wordBits - 1) / cfg.BlockSize) ≤ 2 ^ cfg.wordBits - 1 :=
    Nat.mul_div_le _ _
  have hlt : (cfg.BlockSize - cfg.ptrSize) / cfg.slotSize
      * ((2 ^ cfg.wordBits - 1) / cfg.BlockSize) < 2 ^ cfg.wordBits := by
    have := Nat.mul_le_mul_right ((2 ^ cfg.wordBits - 1) / cfg.BlockSize) h1
    omega
  have heq : max_size cfg pool
        = (cfg.BlockSize - cfg.ptrSize) / cfg.slotSize
          * ((2 ^ cfg.wordBits - 1) / cfg.BlockSize) := by
    unfold max_size
    simp only [hsub, hone]
    exact wrap_of_lt hlt
  have hq1 : 0 < (cfg.BlockSize - cfg.ptrSize) / cfg.slotSize :=
    Nat.div_pos (by omega) hS
  have hq2 : 0 < (2 ^ cfg.wordBits - 1) / cfg.BlockSize :=
    Nat.div_pos (by omega) hBpos
  refine ⟨heq, hlt, ?_, fun _ => rfl⟩
  rw [heq]
  exact Nat.mul_pos hq1 hq2

theorem max_size_formula_witness :
    max_size cfg64 defaultConstruct
        = (cfg64.BlockSize - cfg64.ptrSize) / cfg64.slotSize
          * ((2 ^ cfg64.wordBits - 1) / cfg64.BlockSize) ∧
    (cfg64.BlockSize - cfg64.ptrSize) / cfg64.slotSize
        * ((2 ^ cfg64.wordBits - 1) / cfg64.BlockSize) < 2 ^ cfg64.wordBits ∧
    0 < max_size cfg64 defaultConstruct ∧
    ∀ other : Pool, max_size cfg64 other = max_size cfg64 defaultConstruct :=
  max_size_formula cfg64 defaultConstruct (by decide) (by decide) (by decide) (by decide)

/-- C10: `deallocate(nullptr)` and `deleteElement(nullptr)` return the pool and
the memory unchanged; `deallocate(p)` for a non-null `p` makes `p` the free-list
head and stores the previous head at `p`, leaving the other three members, the
pointers stored elsewhere and the record of acquired blocks as they were. -/
theorem deallocate_frame (pool : Pool) (heap : Heap) (n : Nat) (dtor : Nat → Heap → Heap) :
    deallocate pool heap 0 n = (pool, heap) ∧
    deleteElement dtor pool heap 0 = (pool, heap) ∧
    ∀ p, p ≠ 0 →
      (deallocate pool heap p n).1.freeSlots_ = p ∧
      (deallocate pool heap p n).2.next p = pool.freeSlots_ ∧
      (deallocate pool heap p n).1.currentBlock_ = pool.currentBlock_ ∧
      (deallocate pool heap p n).1.currentSlot_ = pool.currentSlot_ ∧
      (deallocate pool heap p n).1.lastSlot_ = pool.lastSlot_ ∧
      (∀ a, a ≠ p → (deallocate pool heap p n).2.next a = heap.next a) ∧
      (deallocate pool heap p n).2.acquired = heap.acquired := by
  refine ⟨by simp [deallocate], by simp [deleteElement], ?_⟩
  intro p hp
  simp only [deallocate, hp, ne_eq, not_false_eq_true, if_true]
  refine ⟨trivial, store_same _ _ _, trivial, trivial, trivial, ?_, trivial⟩
  intro a ha
  exact store_other heap.next pool.freeSlots_ ha

theorem deallocate_frame_witness :
    (deallocate defaultConstruct heapZero 4104 1).1.freeSlots_ = 4104 ∧
    (deallocate defaultConstruct heapZero 4104 1).2.next 4104 = defaultConstruct.freeSlots_ :=
  ⟨((deallocate_frame defaultConstruct heapZero 1 (fun _ h => h)).2.2 4104 (by decide)).1,
   ((deallocate_frame defaultConstruct heapZero 1 (fun _ h => h)).2.2 4104 (by decide)).2.1⟩

/-! ### The layout of a fresh block -/

theorem Config.Valid.align_pos {cfg : Config} (hv : cfg.Valid) : 0 < cfg.slotAlign :=
  Nat.pos_of_dvd_of_pos hv.align_dvd_size hv.size_pos

theorem Config.Valid.align_le_size {cfg : Config} (hv : cfg.Valid) :
    cfg.slotAlign ≤ cfg.slotSize :=
  Nat.le_of_dvd hv.size_pos hv.align_dvd_size

theorem Config.Valid.ptr_le_align {cfg : Config} (hv : cfg.Valid) :
    cfg.ptrSize ≤ cfg.slotAlign :=
  Nat.le_of_dvd hv.align_pos hv.ptr_dvd_align

/-- The padding is below the alignment and rounds the address up to it. -/
theorem padPointer_spec (cfg : Config) {body align : Nat} (hA : 0 < align)
    (hdvd : align ∣ 2 ^ cfg.wordBits) (hb : body < 2 ^ cfg.wordBits) :
    padPointer cfg body align < align ∧ align ∣ body + padPointer cfg body align := by
  have hpad : padPointer cfg body align
      = (align % 2 ^ cfg.wordBits + 2 ^ cfg.wordBits - body) % align := by
    simp only [padPointer, subW, wrap]
    rw [Nat.mod_mod, Nat.mod_eq_of_lt hb, Nat.mod_mod_of_dvd _ hdvd]
  refine ⟨by rw [hpad]; exact Nat.mod_lt _ hA, ?_⟩
  rw [hpad]
  apply Nat.dvd_of_mod_eq_zero
  rw [Nat.add_mod_mod]
  have e : body + (align % 2 ^ cfg.wordBits + 2 ^ cfg.wordBits - body)
      = align % 2 ^ cfg.wordBits + 2 ^ cfg.wordBits := by omega
  rw [e, Nat.add_mod, Nat.mod_mod_of_dvd _ hdvd, Nat.mod_self, Nat.mod_eq_zero_of_dvd hdvd]
  simp

/-- The first slot of a fresh block lies inside the block: it starts after the
header and at most one alignment after the start of the block. -/
theorem firstSlot_bounds {cfg : Config} (hv : cfg.Valid) {B : Nat}
    (hB : cfg.ptrSize ∣ B) (hr : B + cfg.BlockSize < 2 ^ cfg.wordBits) :
    B + cfg.ptrSize ≤ firstSlot cfg B ∧ firstSlot cfg B ≤ B + cfg.slotAlign ∧
    cfg.slotAlign ∣ firstSlot cfg B := by
  have hAS := hv.align_le_size
  have hPA := hv.ptr_le_align
  have hbg := hv.block_ge
  have hbody : B + cfg.ptrSize < 2 ^ cfg.wordBits := by omega
  obtain ⟨hlt, hdvd⟩ := padPointer_spec cfg hv.align_pos hv.align_dvd_word hbody
  refine ⟨Nat.le_add_right _ _, ?_, hdvd⟩
  by_contra hcon
  have hgt : B + cfg.slotAlign < firstSlot cfg B := Nat.lt_of_not_le hcon
  have hPf : cfg.ptrSize ∣ firstSlot cfg B := Nat.dvd_trans hv.ptr_dvd_align hdvd
  have hd : cfg.ptrSize ∣ firstSlot cfg B - cfg.slotAlign - B :=
    Nat.dvd_sub' (Nat.dvd_sub' hPf hv.ptr_dvd_align) hB
  have hle : cfg.ptrSize ≤ firstSlot cfg B - cfg.slotAlign - B :=
    Nat.le_of_dvd (by omega) hd
  unfold firstSlot at hgt hle
  omega

/-- What `allocateBlock()` does when `::operator new` returns the block `B`. -/
theorem allocateBlock_eq {cfg : Config} {sysNew : SysNew} (hv : cfg.Valid)
    (hs : SysNew.Valid cfg sysNew) (pool : Pool) (heap : Heap) {B : Nat}
    (h : sysNew heap.acquired.length = some B) :
    allocateBlock cfg sysNew pool heap
      = some ({ currentBlock_ := B, currentSlot_ := firstSlot cfg B,
                lastSlot_ := B + cfg.BlockSize - cfg.slotSize + 1,
                freeSlots_ := pool.freeSlots_ },
              { next := store heap.next B pool.currentBlock_,
                acquired := B :: heap.acquired }) := by
  have hr := hs.inRange _ _ h
  obtain ⟨h1, h2, _⟩ := firstSlot_bounds hv (hs.aligned _ _ h) hr
  have hAS := hv.align_le_size
  have hPA := hv.ptr_le_align
  have hbg := hv.block_ge
  have hS := hv.size_pos
  have e1 : addW cfg B cfg.ptrSize = B + cfg.ptrSize := addW_of_lt (by omega)
  have e2 : addW cfg (B + cfg.ptrSize) (padPointer cfg (B + cfg.ptrSize) cfg.slotAlign)
      = firstSlot cfg B := addW_of_lt (by unfold firstSlot at h2; omega)
  have e3 : addW cfg B cfg.BlockSize = B + cfg.BlockSize := addW_of_lt hr
  have e4 : subW cfg (B + cfg.BlockSize) cfg.slotSize = B + cfg.BlockSize - cfg.slotSize :=
    subW_of_le (by omega) hr
  have e5 : addW cfg (B + cfg.BlockSize - cfg.slotSize) 1
      = B + cfg.BlockSize - cfg.slotSize + 1 := addW_of_lt (by omega)
  simp only [allocateBlock, h, e1, e2, e3, e4, e5]

/-! ### The three paths of `allocate` -/

theorem allocate_pop (cfg : Config) (sysNew : SysNew) (pool : Pool) (heap : Heap)
    (n hint : Nat) (h : pool.freeSlots_ ≠ 0) :
    allocate cfg sysNew pool heap n hint
      = some (pool.freeSlots_, { pool with freeSlots_ := heap.next pool.freeSlots_ }, heap) := by
  simp [allocate, h]

theorem allocate_bump (cfg : Config) (sysNew : SysNew) (pool : Pool) (heap : Heap)
    (n hint : Nat) (h : pool.freeSlots_ = 0) (hc : pool.currentSlot_ < pool.lastSlot_) :
    allocate cfg sysNew pool heap n hint
      = some (pool.currentSlot_,
          { pool with currentSlot_ := addW cfg pool.currentSlot_ cfg.slotSize }, heap) := by
  simp [allocate, h, Nat.not_le.mpr hc]

theorem allocate_throw (cfg : Config) (sysNew : SysNew) (pool : Pool) (heap : Heap)
    (n hint : Nat) (h : pool.freeSlots_ = 0) (hc : pool.lastSlot_ ≤ pool.currentSlot_)
    (hn : sysNew heap.acquired.length = none) :
    allocate cfg sysNew pool heap n hint = none := by
  simp [allocate, h, hc, allocateBlock, hn]

theorem allocate_block {cfg : Config} {sysNew : SysNew} (hv : cfg.Valid)
    (hs : SysNew.Valid cfg sysNew) (pool : Pool) (heap : Heap) (n hint : Nat) {B : Nat}
    (h : pool.freeSlots_ = 0) (hc : pool.lastSlot_ ≤ pool.currentSlot_)
    (hn : sysNew heap.acquired.length = some B) :
    allocate cfg sysNew pool heap n hint
      = some (firstSlot cfg B,
          { currentBlock_ := B, currentSlot_ := firstSlot cfg B + cfg.slotSize,
            lastSlot_ := B + cfg.BlockSize - cfg.slotSize + 1, freeSlots_ := 0 },
          { next := store heap.next B pool.currentBlock_, acquired := B :: heap.acquired }) := by
  have hr := hs.inRange _ _ hn
  obtain ⟨_, h2, _⟩ := firstSlot_bounds hv (hs.aligned _ _ hn) hr
  have hAS := hv.align_le_size
  have hbg := hv.block_ge
  have e : addW cfg (firstSlot cfg B) cfg.slotSize = firstSlot cfg B + cfg.slotSize :=
    addW_of_lt (by omega)
  simp [allocate, h, hc, allocateBlock_eq hv hs pool heap hn, e]

/-! ### Chains of stored pointers -/

theorem chainFrom_nil {next : Nat → Nat} {head : Nat} :
    chainFrom next head [] ↔ head = 0 := by
  simp [chainFrom]

theorem chainFrom_cons {next : Nat → Nat} {head b : Nat} {bs : List Nat} :
    chainFrom next head (b :: bs) ↔ head = b ∧ b ≠ 0 ∧ chainFrom next (next b) bs := by
  simp [chainFrom]

theorem chainFrom_store {next : Nat → Nat} (a v : Nat) :
    ∀ (bs : List Nat) (head : Nat), a ∉ bs → chainFrom next head bs →
      chainFrom (store next a v) head bs := by
  intro bs
  induction bs with
  | nil => intro head _ h; exact chainFrom_nil.mpr (chainFrom_nil.mp h)
  | cons b bs ih =>
    intro head ha h
    obtain ⟨h1, h2, h3⟩ := chainFrom_cons.mp h
    have hba : b ≠ a := fun e => ha (by simp [e])
    have hbs : a ∉ bs := fun e => ha (List.mem_cons_of_mem _ e)
    refine chainFrom_cons.mpr ⟨h1, h2, ?_⟩
    rw [store_other next v hba]
    exact ih (next b) hbs h3

theorem chainFrom_null {next : Nat → Nat} {bs : List Nat} (h : chainFrom next 0 bs) :
    bs = [] := by
  cases bs with
  | nil => rfl
  | cons b bs =>
    obtain ⟨h1, h2, _⟩ := chainFrom_cons.mp h
    exact absurd h1.symm h2

theorem chainFrom_not_mem_zero {next : Nat → Nat} :
    ∀ (bs : List Nat) (head : Nat), chainFrom next head bs → 0 ∉ bs := by
  intro bs
  induction bs with
  | nil => intro _ _; simp
  | cons b bs ih =>
    intro head h
    obtain ⟨_, h2, h3⟩ := chainFrom_cons.mp h
    intro hm
    rcases List.mem_cons.mp hm with e | e
    · exact h2 e.symm
    · exact ih _ h3 e

/-- With fuel for each block of the chain, the walk of the destructor releases
the blocks of the chain, in order. -/
theorem destroyWalk_of_chainFrom {next : Nat → Nat} :
    ∀ (bs : List Nat) (head fuel : Nat), chainFrom next head bs → bs.length ≤ fuel →
      destroyWalk next fuel head = some bs := by
  intro bs
  induction bs with
  | nil =>
    intro head fuel h _
    rw [chainFrom_nil.mp h]
    exact destroyWalk_null next fuel
  | cons b bs ih =>
    intro head fuel h hf
    obtain ⟨h1, h2, h3⟩ := chainFrom_cons.mp h
    subst h1
    cases fuel with
    | zero => simp at hf
    | succ fuel =>
      rw [destroyWalk_step next fuel h2, ih (next head) fuel h3 (by simpa using hf)]
      rfl

/-! ### The invariant -/

theorem log_mem {sysNew : SysNew} {acq : List Nat}
    (hlog : acq.reverse.map some = (List.range acq.length).map sysNew) {B : Nat}
    (hB : B ∈ acq) : ∃ i, i < acq.length ∧ sysNew i = some B := by
  have h1 : some B ∈ acq.reverse.map some :=
    List.mem_map.mpr ⟨B, List.mem_reverse.mpr hB, rfl⟩
  rw [hlog] at h1
  obtain ⟨i, hi, hiB⟩ := List.mem_map.mp h1
  exact ⟨i, List.mem_range.mp hi, hiB⟩

theorem log_cons {sysNew : SysNew} {acq : List Nat}
    (hlog : acq.reverse.map some = (List.range acq.length).map sysNew) {B : Nat}
    (hB : sysNew acq.length = some B) :
    (B :: acq).reverse.map some = (List.range (B :: acq).length).map sysNew := by
  simp only [List.reverse_cons, List.map_append, List.length_cons, List.range_succ, hlog,
    List.map_cons, List.map_nil, hB]

theorem blocks_apart {cfg : Config} {sysNew : SysNew} (hs : SysNew.Valid cfg sysNew)
    {i j B C : Nat} (hi : sysNew i = some B) (hj : sysNew j = some C) :
    B = C ∨ B + cfg.BlockSize ≤ C ∨ C + cfg.BlockSize ≤ B := by
  by_cases e : i = j
  · subst e
    rw [hi] at hj
    exact Or.inl (Option.some.inj hj)
  · exact Or.inr (hs.disjoint i j B C e hi hj)

/-- The block that the next call of `::operator new` returns does not overlap a
block acquired before. -/
theorem fresh_block_apart {cfg : Config} {sysNew : SysNew} (hs : SysNew.Valid cfg sysNew)
    {acq : List Nat} (hlog : acq.reverse.map some = (List.range acq.length).map sysNew)
    {B C : Nat} (hB : sysNew acq.length = some B) (hC : C ∈ acq) :
    B + cfg.BlockSize ≤ C ∨ C + cfg.BlockSize ≤ B := by
  obtain ⟨i, hi, hiC⟩ := log_mem hlog hC
  exact hs.disjoint _ _ B C (by omega) hB hiC

/-- Two slots that lie in acquired blocks and have the same address lie in the
same block. -/
theorem inBlock_unique {cfg : Config} {sysNew : SysNew} (hv : cfg.Valid)
    (hs : SysNew.Valid cfg sysNew) {acq : List Nat}
    (hlog : acq.reverse.map some = (List.range acq.length).map sysNew)
    {B C a : Nat} (hB : B ∈ acq) (hC : C ∈ acq) (haB : InBlock cfg B a)
    (haC : InBlock cfg C a) : B = C := by
  obtain ⟨i, _, hi⟩ := log_mem hlog hB
  obtain ⟨j, _, hj⟩ := log_mem hlog hC
  have hS := hv.size_pos
  have hP := hv.ptr_pos
  unfold InBlock at haB haC
  rcases blocks_apart hs hi hj with e | e | e
  · exact e
  · omega
  · omega

/-- An issued slot is not the start of an acquired block. -/
theorem Inv.slot_not_block {cfg : Config} {sysNew : SysNew} {pool : Pool} {heap : Heap}
    {live fl : List Nat} (hv : cfg.Valid) (hs : SysNew.Valid cfg sysNew)
    (inv : Inv cfg sysNew pool heap live fl) {a : Nat} (ha : a ∈ live ++ fl) :
    a ∉ heap.acquired := by
  intro hm
  obtain ⟨B, hB, hin, _⟩ := inv.slots a ha
  obtain ⟨i, _, hi⟩ := log_mem inv.log hB
  obtain ⟨j, _, hj⟩ := log_mem inv.log hm
  have hS := hv.size_pos
  have hP := hv.ptr_pos
  unfold InBlock at hin
  rcases blocks_apart hs hi hj with e | e | e <;> omega

theorem Inv.slot_ne_zero {cfg : Config} {sysNew : SysNew} {pool : Pool} {heap : Heap}
    {live fl : List Nat} (hv : cfg.Valid)
    (inv : Inv cfg sysNew pool heap live fl) {a : Nat} (ha : a ∈ live ++ fl) : a ≠ 0 := by
  obtain ⟨B, _, hin, _⟩ := inv.slots a ha
  have hP := hv.ptr_pos
  unfold InBlock at hin
  omega

theorem Inv.fresh {cfg : Config} {sysNew : SysNew} (heap : Heap) (h : heap.acquired = []) :
    Inv cfg sysNew defaultConstruct heap [] [] where
  log := by simp [h]
  blocks := by rw [h]; exact chainFrom_nil.mpr rfl
  blocksNodup := by rw [h]; exact List.nodup_nil
  free := chainFrom_nil.mpr rfl
  nodup := by simp
  cursorNone := fun _ => ⟨rfl, rfl⟩
  cursorSome := by intro B rest e; rw [h] at e; cases e
  slots := by intro a ha; simp at ha

/-- The invariant along the free-list path of `allocate`. -/
theorem Inv.pop {cfg : Config} {sysNew : SysNew} {pool : Pool} {heap : Heap}
    {live fl : List Nat} (inv : Inv cfg sysNew pool heap live fl)
    (h : pool.freeSlots_ ≠ 0) :
    ∃ fl1, fl = pool.freeSlots_ :: fl1 ∧ pool.freeSlots_ ∉ live ∧
      Inv cfg sysNew { pool with freeSlots_ := heap.next pool.freeSlots_ } heap
        (pool.freeSlots_ :: live) fl1 := by
  cases fl with
  | nil => exact absurd (chainFrom_nil.mp inv.free) h
  | cons q fl1 =>
    obtain ⟨h1, _, h3⟩ := chainFrom_cons.mp inv.free
    have hperm : List.Perm (live ++ q :: fl1) (q :: live ++ fl1) := List.perm_middle
    have hnd : (q :: live ++ fl1).Nodup := hperm.nodup_iff.mp inv.nodup
    refine ⟨fl1, by rw [h1], ?_, ?_⟩
    · rw [h1]
      intro hq
      have := (List.nodup_cons.mp hnd).1
      exact this (List.mem_append_left _ hq)
    · rw [h1]
      exact {
        log := inv.log
        blocks := inv.blocks
        blocksNodup := inv.blocksNodup
        free := h3
        nodup := hnd
        cursorNone := inv.cursorNone
        cursorSome := inv.cursorSome
        slots := fun a ha => inv.slots a (hperm.mem_iff.mpr ha) }

/-- The invariant along the bump path of `allocate` when the current block has
room. -/
theorem Inv.bump {cfg : Config} {sysNew : SysNew} {pool : Pool} {heap : Heap}
    {live fl : List Nat} (hv : cfg.Valid) (hs : SysNew.Valid cfg sysNew)
    (inv : Inv cfg sysNew pool heap live fl)
    (hc : pool.currentSlot_ < pool.lastSlot_) :
    pool.currentSlot_ ∉ live ++ fl ∧
    addW cfg pool.currentSlot_ cfg.slotSize = pool.currentSlot_ + cfg.slotSize ∧
    Inv cfg sysNew { pool with currentSlot_ := addW cfg pool.currentSlot_ cfg.slotSize } heap
      (pool.currentSlot_ :: live) fl := by
  have hS := hv.size_pos
  have hbg := hv.block_ge
  cases hacq : heap.acquired with
  | nil =>
    obtain ⟨e1, e2⟩ := inv.cursorNone hacq
    omega
  | cons B rest =>
    obtain ⟨c1, c2, c3⟩ := inv.cursorSome B rest hacq
    have hBmem : B ∈ heap.acquired := by rw [hacq]; exact List.mem_cons_self _ _
    have hcb : pool.currentBlock_ = B := by
      have := inv.blocks
      rw [hacq] at this
      exact (chainFrom_cons.mp this).1
    obtain ⟨i, _, hi⟩ := log_mem inv.log hBmem
    have hr := hs.inRange _ _ hi
    have hfit : pool.currentSlot_ + cfg.slotSize ≤ B + cfg.BlockSize := by omega
    have hadd : addW cfg pool.currentSlot_ cfg.slotSize = pool.currentSlot_ + cfg.slotSize :=
      addW_of_lt (by omega)
    have hin : InBlock cfg B pool.currentSlot_ := ⟨c1, hfit⟩
    have hnot : pool.currentSlot_ ∉ live ++ fl := by
      intro hm
      obtain ⟨C, hC, hinC, hlt⟩ := inv.slots _ hm
      have e : C = B := inBlock_unique hv hs inv.log hC hBmem hinC hin
      have := hlt (by rw [e, hcb])
      omega
    refine ⟨hnot, hadd, ?_⟩
    rw [hadd]
    exact {
      log := inv.log
      blocks := inv.blocks
      blocksNodup := inv.blocksNodup
      free := inv.free
      nodup := by
        rw [List.cons_append]
        exact List.nodup_cons.mpr ⟨hnot, inv.nodup⟩
      cursorNone := fun e => by rw [hacq] at e; cases e
      cursorSome := by
        intro B1 rest1 e
        rw [hacq] at e
        cases e
        exact ⟨by show B + cfg.ptrSize ≤ pool.currentSlot_ + cfg.slotSize; omega, hfit, c3⟩
      slots := by
        intro a ha
        rw [List.cons_append] at ha
        rcases List.mem_cons.mp ha with e | e
        · subst e
          exact ⟨B, hBmem, hin, fun _ => by
            show pool.currentSlot_ < pool.currentSlot_ + cfg.slotSize; omega⟩
        · obtain ⟨C, hC, hinC, hlt⟩ := inv.slots a e
          exact ⟨C, hC, hinC, fun e1 => by
            have := hlt e1
            show a < pool.currentSlot_ + cfg.slotSize; omega⟩ }

/-- The invariant along the path of `allocate` that acquires a block. -/
theorem Inv.block {cfg : Config} {sysNew : SysNew} {pool : Pool} {heap : Heap}
    {live fl : List Nat} (hv : cfg.Valid) (hs : SysNew.Valid cfg sysNew)
    (inv : Inv cfg sysNew pool heap live fl) {B : Nat}
    (hfs : pool.freeSlots_ = 0) (hn : sysNew heap.acquired.length = some B) :
    firstSlot cfg B ∉ live ++ fl ∧
    Inv cfg sysNew
      { currentBlock_ := B, currentSlot_ := firstSlot cfg B + cfg.slotSize,
        lastSlot_ := B + cfg.BlockSize - cfg.slotSize + 1, freeSlots_ := 0 }
      { next := store heap.next B pool.currentBlock_, acquired := B :: heap.acquired }
      (firstSlot cfg B :: live) fl := by
  have hS := hv.size_pos
  have hP := hv.ptr_pos
  have hbg := hv.block_ge
  have hAS := hv.align_le_size
  have hr := hs.inRange _ _ hn
  obtain ⟨f1, f2, _⟩ := firstSlot_bounds hv (hs.aligned _ _ hn) hr
  have hin : InBlock cfg B (firstSlot cfg B) := ⟨f1, by omega⟩
  have hBnot : B ∉ heap.acquired := by
    intro hm
    have := fresh_block_apart hs inv.log hn hm
    omega
  have hfl : fl = [] := by
    have := inv.free
    rw [hfs] at this
    exact chainFrom_null this
  have hnot : firstSlot cfg B ∉ live ++ fl := by
    intro hm
    obtain ⟨C, hC, hinC, _⟩ := inv.slots _ hm
    have := fresh_block_apart hs inv.log hn hC
    unfold InBlock at hin hinC
    omega
  refine ⟨hnot, ?_⟩
  exact {
    log := log_cons inv.log hn
    blocks := by
      refine chainFrom_cons.mpr ⟨rfl, hs.nonnull _ _ hn, ?_⟩
      show chainFrom _ (store heap.next B pool.currentBlock_ B) heap.acquired
      rw [store_same]
      exact chainFrom_store B _ _ _ hBnot inv.blocks
    blocksNodup := List.nodup_cons.mpr ⟨hBnot, inv.blocksNodup⟩
    free := by
      rw [hfl]
      exact chainFrom_nil.mpr rfl
    nodup := by
      rw [List.cons_append]
      exact List.nodup_cons.mpr ⟨hnot, inv.nodup⟩
    cursorNone := fun e => by cases e
    cursorSome := by
      intro B1 rest1 e
      cases e
      exact ⟨by show B + cfg.ptrSize ≤ firstSlot cfg B + cfg.slotSize; omega,
        by show firstSlot cfg B + cfg.slotSize ≤ B + cfg.BlockSize; omega, rfl⟩
    slots := by
      intro a ha
      rw [List.cons_append] at ha
      rcases List.mem_cons.mp ha with e | e
      · subst e
        exact ⟨B, List.mem_cons_self _ _, hin, fun _ => by
          show firstSlot cfg B < firstSlot cfg B + cfg.slotSize; omega⟩
      · obtain ⟨C, hC, hinC, _⟩ := inv.slots a e
        refine ⟨C, List.mem_cons_of_mem _ hC, hinC, fun e1 => ?_⟩
        have e2 : C = B := e1
        exact absurd (e2 ▸ hC) hBnot }

/-- The invariant is kept by `deallocate(p)` for a live slot `p`. -/
theorem Inv.dealloc {cfg : Config} {sysNew : SysNew} {pool : Pool} {heap : Heap}
    {live fl : List Nat} (hv : cfg.Valid) (hs : SysNew.Valid cfg sysNew)
    (inv : Inv cfg sysNew pool heap live fl) {p : Nat} (n : Nat) (hp : p ∈ live) :
    Inv cfg sysNew (deallocate pool heap p n).1 (deallocate pool heap p n).2
      (live.erase p) (p :: fl) := by
  have hmem : p ∈ live ++ fl := List.mem_append_left _ hp
  have hp0 : p ≠ 0 := inv.slot_ne_zero hv hmem
  have hpb : p ∉ heap.acquired := inv.slot_not_block hv hs hmem
  have hperm : List.Perm (live.erase p ++ p :: fl) (live ++ fl) :=
    List.perm_middle.trans ((List.perm_cons_erase hp).symm.append_right fl)
  have hnd : (live.erase p ++ p :: fl).Nodup := hperm.nodup_iff.mpr inv.nodup
  have hpfl : p ∉ fl := by
    intro hm
    exact (List.nodup_append.mp inv.nodup).2.2 hp hm
  simp only [deallocate, hp0, ne_eq, not_false_eq_true, if_true]
  exact {
    log := inv.log
    blocks := chainFrom_store p _ _ _ hpb inv.blocks
    blocksNodup := inv.blocksNodup
    free := by
      refine chainFrom_cons.mpr ⟨rfl, hp0, ?_⟩
      show chainFrom _ (store heap.next p pool.freeSlots_ p) fl
      rw [store_same]
      exact chainFrom_store p _ _ _ hpfl inv.free
    nodup := hnd
    cursorNone := inv.cursorNone
    cursorSome := inv.cursorSome
    slots := fun a ha => inv.slots a (hperm.mem_iff.mp ha) }

/-- The invariant is kept when the user writes into a live slot. -/
theorem Inv.write {cfg : Config} {sysNew : SysNew} {pool : Pool} {heap : Heap}
    {live fl : List Nat} (hv : cfg.Valid) (hs : SysNew.Valid cfg sysNew)
    (inv : Inv cfg sysNew pool heap live fl) {p : Nat} (v : Nat) (hp : p ∈ live) :
    Inv cfg sysNew pool { heap with next := store heap.next p v } live fl := by
  have hmem : p ∈ live ++ fl := List.mem_append_left _ hp
  have hpb : p ∉ heap.acquired := inv.slot_not_block hv hs hmem
  have hpfl : p ∉ fl := by
    intro hm
    exact (List.nodup_append.mp inv.nodup).2.2 hp hm
  exact {
    log := inv.log
    blocks := chainFrom_store p _ _ _ hpb inv.blocks
    blocksNodup := inv.blocksNodup
    free := chainFrom_store p _ _ _ hpfl inv.free
    nodup := inv.nodup
    cursorNone := inv.cursorNone
    cursorSome := inv.cursorSome
    slots := inv.slots }

/-- The invariant is kept by `allocate`, and the slot it returns is neither
live nor on the free list that remains. -/
theorem Inv.alloc {cfg : Config} {sysNew : SysNew} {pool : Pool} {heap : Heap}
    {live fl : List Nat} (hv : cfg.Valid) (hs : SysNew.Valid cfg sysNew)
    (inv : Inv cfg sysNew pool heap live fl) {n hint p : Nat} {pool1 : Pool} {heap1 : Heap}
    (h : allocate cfg sysNew pool heap n hint = some (p, pool1, heap1)) :
    p ∉ live ∧ ∃ fl1, Inv cfg sysNew pool1 heap1 (p :: live) fl1 := by
  by_cases hfs : pool.freeSlots_ = 0
  · by_cases hc : pool.currentSlot_ < pool.lastSlot_
    · rw [allocate_bump cfg sysNew pool heap n hint hfs hc] at h
      obtain ⟨hnot, _, hinv⟩ := inv.bump hv hs hc
      cases h
      exact ⟨fun hm => hnot (List.mem_append_left _ hm), fl, hinv⟩
    · have hc1 : pool.lastSlot_ ≤ pool.currentSlot_ := Nat.le_of_not_lt hc
      cases hn : sysNew heap.acquired.length with
      | none =>
        rw [allocate_throw cfg sysNew pool heap n hint hfs hc1 hn] at h
        cases h
      | some B =>
        rw [allocate_block hv hs pool heap n hint hfs hc1 hn] at h
        obtain ⟨hnot, hinv⟩ := inv.block hv hs hfs hn
        cases h
        exact ⟨fun hm => hnot (List.mem_append_left _ hm), fl, hinv⟩
  · rw [allocate_pop cfg sysNew pool heap n hint hfs] at h
    obtain ⟨fl1, _, hnot, hinv⟩ := inv.pop hfs
    cases h
    exact ⟨hnot, fl1, hinv⟩

/-- Every state reached within the contract satisfies the invariant. -/
theorem ReachableLive.inv {cfg : Config} {sysNew : SysNew} (hv : cfg.Valid)
    (hs : SysNew.Valid cfg sysNew) {pool : Pool} {heap : Heap} {live : List Nat}
    (r : ReachableLive cfg sysNew pool heap live) :
    ∃ fl, Inv cfg sysNew pool heap live fl := by
  induction r with
  | fresh heap h => exact ⟨[], Inv.fresh heap h⟩
  | alloc n hint r h ih =>
    obtain ⟨fl, inv⟩ := ih
    exact (inv.alloc hv hs h).2
  | dealloc p n r hp ih =>
    obtain ⟨fl, inv⟩ := ih
    exact ⟨p :: fl, inv.dealloc hv hs n hp⟩
  | write p v r hp ih =>
    obtain ⟨fl, inv⟩ := ih
    exact ⟨fl, inv.write hv hs v hp⟩

/-! ### The running example -/

theorem cfg64_valid : cfg64.Valid where
  ptr_pos := by decide
  ptr_dvd_align := by decide
  align_dvd_size := by decide
  size_pos := by decide
  align_dvd_word := ⟨2 ^ 61, by norm_num [cfg64]⟩
  block_ge := by decide
  block_lt := by norm_num [cfg64]

theorem sysPages_eq {i B : Nat} (h : sysPages i = some B) : i < 1000 ∧ B = 4096 * (i + 1) := by
  unfold sysPages at h
  by_cases hi : i < 1000
  · rw [if_pos hi] at h
    exact ⟨hi, (Option.some.inj h).symm⟩
  · rw [if_neg hi] at h
    cases h

theorem sysPages_valid : SysNew.Valid cfg64 sysPages where
  nonnull := by
    intro i B h
    obtain ⟨_, e⟩ := sysPages_eq h
    omega
  aligned := by
    intro i B h
    obtain ⟨_, e⟩ := sysPages_eq h
    exact ⟨512 * (i + 1), by rw [e]; show 4096 * (i + 1) = 8 * (512 * (i + 1)); omega⟩
  inRange := by
    intro i B h
    obtain ⟨hi, e⟩ := sysPages_eq h
    have : (2 : Nat) ^ cfg64.wordBits = 18446744073709551616 := by norm_num [cfg64]
    rw [this]
    show B + 64 < 18446744073709551616
    omega
  disjoint := by
    intro i j B C hij hB hC
    obtain ⟨_, e1⟩ := sysPages_eq hB
    obtain ⟨_, e2⟩ := sysPages_eq hC
    show B + 64 ≤ C ∨ C + 64 ≤ B
    omega

theorem allocate_fresh_example :
    allocate cfg64 sysPages defaultConstruct heapZero 1 0 = some (4104, poolA, heapA) := by
  rfl

theorem allocate_second_example :
    allocate cfg64 sysPages poolA heapA 1 0
      = some (4120, { poolA with currentSlot_ := 4136 }, heapA) := by
  rfl

/-! ### Uniqueness of live slots -/

/-- C1: on a pool that started empty and whose `deallocate` was only ever given
a live slot, with a system allocator whose blocks do not overlap, the address
that a call of `allocate` returns differs from the address of every live slot;
so the live slots stay pairwise distinct. -/
theorem allocate_unique {cfg : Config} {sysNew : SysNew} (hv : cfg.Valid)
    (hs : SysNew.Valid cfg sysNew) {pool : Pool} {heap : Heap} {live : List Nat}
    (r : ReachableLive cfg sysNew pool heap live) {n hint p : Nat} {pool1 : Pool}
    {heap1 : Heap} (h : allocate cfg sysNew pool heap n hint = some (p, pool1, heap1)) :
    p ∉ live ∧ (p :: live).Nodup := by
  obtain ⟨fl, inv⟩ := r.inv hv hs
  obtain ⟨hnot, fl1, inv1⟩ := inv.alloc hv hs h
  exact ⟨hnot, (List.nodup_append.mp inv1.nodup).1⟩

theorem allocate_unique_witness : 4120 ∉ [4104] ∧ [4120, 4104].Nodup :=
  allocate_unique cfg64_valid sysPages_valid
    (ReachableLive.alloc 1 0 (ReachableLive.fresh heapZero rfl) allocate_fresh_example)
    allocate_second_example

/-! ### The free list is a stack -/

theorem linkedTo_append {next : Nat → Nat} :
    ∀ (xs : List Nat) (head mid : Nat) (ys : List Nat) (tl : Nat),
      linkedTo next head xs mid → linkedTo next mid ys tl → linkedTo next head (xs ++ ys) tl := by
  intro xs
  induction xs with
  | nil =>
    intro head mid ys tl h1 h2
    have e : head = mid := h1
    rw [e]
    exact h2
  | cons x xs ih =>
    intro head mid ys tl h1 h2
    obtain ⟨a, b, c⟩ := h1
    exact ⟨a, b, ih _ _ _ _ c h2⟩

theorem linkedTo_prefix {next : Nat → Nat} :
    ∀ (xs : List Nat) (head : Nat) (ys : List Nat) (tl : Nat),
      linkedTo next head (xs ++ ys) tl → ∃ mid, linkedTo next head xs mid := by
  intro xs
  induction xs with
  | nil => intro head ys tl _; exact ⟨head, rfl⟩
  | cons x xs ih =>
    intro head ys tl h
    obtain ⟨a, b, c⟩ := h
    obtain ⟨mid, hmid⟩ := ih _ _ _ c
    exact ⟨mid, a, b, hmid⟩

/-- After `deallocate` of distinct non-null addresses the free list leads
through them, last freed first, to the former head. -/
theorem deallocateAll_linked :
    ∀ (ps : List Nat) (pool : Pool) (heap : Heap), (∀ p ∈ ps, p ≠ 0) → ps.Nodup →
      ∃ hd nx, deallocateAll ps pool heap
          = ({ pool with freeSlots_ := hd }, { heap with next := nx }) ∧
        linkedTo nx hd ps.reverse pool.freeSlots_ ∧ ∀ a, a ∉ ps → nx a = heap.next a := by
  intro ps
  induction ps with
  | nil =>
    intro pool heap _ _
    exact ⟨pool.freeSlots_, heap.next, rfl, rfl, fun _ _ => rfl⟩
  | cons p ps ih =>
    intro pool heap h0 hnd
    have hp0 : p ≠ 0 := h0 p (List.mem_cons_self _ _)
    obtain ⟨hpn, hnd1⟩ := List.nodup_cons.mp hnd
    have hd1 : deallocate pool heap p 1
        = ({ pool with freeSlots_ := p },
           { heap with next := store heap.next p pool.freeSlots_ }) := by
      simp [deallocate, hp0]
    obtain ⟨hd, nx, e, hl, hfr⟩ := ih { pool with freeSlots_ := p }
      { heap with next := store heap.next p pool.freeSlots_ }
      (fun q hq => h0 q (List.mem_cons_of_mem _ hq)) hnd1
    refine ⟨hd, nx, ?_, ?_, ?_⟩
    · show deallocateAll ps (deallocate pool heap p 1).1 (deallocate pool heap p 1).2 = _
      rw [hd1]
      exact e
    · rw [List.reverse_cons]
      refine linkedTo_append _ _ p _ _ hl ⟨rfl, hp0, ?_⟩
      show nx p = pool.freeSlots_
      rw [hfr p hpn]
      exact store_same _ _ _
    · intro a ha
      have ha1 : a ∉ ps := fun e1 => ha (List.mem_cons_of_mem _ e1)
      have ha2 : a ≠ p := fun e1 => ha (by simp [e1])
      rw [hfr a ha1]
      exact store_other heap.next pool.freeSlots_ ha2

/-- While the free list leads through `qs`, that many calls of `allocate()`
return `qs` in order and change nothing but the free-list head. -/
theorem allocateN_linked (cfg : Config) (sysNew : SysNew) (heap : Heap) :
    ∀ (qs : List Nat) (pool : Pool) (tl : Nat), linkedTo heap.next pool.freeSlots_ qs tl →
      allocateN cfg sysNew qs.length pool heap
        = some (qs, { pool with freeSlots_ := tl }, heap) := by
  intro qs
  induction qs with
  | nil =>
    intro pool tl h
    have e : pool.freeSlots_ = tl := h
    simp [allocateN, ← e]
  | cons q qs ih =>
    intro pool tl h
    obtain ⟨a, b, c⟩ := h
    have hne : pool.freeSlots_ ≠ 0 := by rw [a]; exact b
    have hstep := allocate_pop cfg sysNew pool heap 1 0 hne
    have hrest := ih { pool with freeSlots_ := heap.next pool.freeSlots_ } tl
      (by rw [a]; exact c)
    rw [a] at hstep hrest
    simp only [List.length_cons, allocateN, hstep, hrest]

/-- The stack discipline for any pool state: distinct non-null addresses that
are freed in a row come back in the reverse order. -/
theorem lifo_core (cfg : Config) (sysNew : SysNew) (pool : Pool) (heap : Heap)
    (ps : List Nat) (h0 : ∀ p ∈ ps, p ≠ 0) (hnd : ps.Nodup) :
    (deallocateAll ps pool heap).2.acquired = heap.acquired ∧
    (∀ j, j ≤ ps.length → ∃ hd,
      allocateN cfg sysNew j (deallocateAll ps pool heap).1 (deallocateAll ps pool heap).2
        = some (ps.reverse.take j, { pool with freeSlots_ := hd },
            (deallocateAll ps pool heap).2)) ∧
    allocateN cfg sysNew ps.length (deallocateAll ps pool heap).1
        (deallocateAll ps pool heap).2
      = some (ps.reverse, pool, (deallocateAll ps pool heap).2) := by
  obtain ⟨hd, nx, e, hl, _⟩ := deallocateAll_linked ps pool heap h0 hnd
  rw [e]
  refine ⟨rfl, ?_, ?_⟩
  · intro j hj
    have hsplit : ps.reverse = ps.reverse.take j ++ ps.reverse.drop j :=
      (List.take_append_drop j ps.reverse).symm
    have hlen : (ps.reverse.take j).length = j := by
      rw [List.length_take, List.length_reverse]
      exact Nat.min_eq_left hj
    rw [hsplit] at hl
    obtain ⟨mid, hmid⟩ := linkedTo_prefix _ _ _ _ hl
    refine ⟨mid, ?_⟩
    have := allocateN_linked cfg sysNew { heap with next := nx } (ps.reverse.take j)
      { pool with freeSlots_ := hd } mid hmid
    rw [hlen] at this
    exact this
  · have := allocateN_linked cfg sysNew { heap with next := nx } ps.reverse
      { pool with freeSlots_ := hd } pool.freeSlots_ hl
    rw [List.length_reverse] at this
    exact this

/-- C4: in a state reached within the contract, after `deallocate` of pairwise
distinct live slots `p1, ..., pk` in this order, `k` calls of `allocate()`
return `pk, ..., p1`; after each of these calls the pool differs from the pool
before the first `deallocate` at most in its free-list head and the memory and
the record of acquired blocks are as the `deallocate` calls left them (no
fresh slot is taken, no block acquired); after the last call the free-list
head is again what it was before the first `deallocate`. -/
theorem free_list_lifo {cfg : Config} {sysNew : SysNew} (hv : cfg.Valid)
    (hs : SysNew.Valid cfg sysNew) {pool : Pool} {heap : Heap} {live : List Nat}
    (r : ReachableLive cfg sysNew pool heap live) (ps : List Nat)
    (hlive : ∀ p ∈ ps, p ∈ live) (hnd : ps.Nodup) :
    (deallocateAll ps pool heap).2.acquired = heap.acquired ∧
    (∀ j, j ≤ ps.length → ∃ hd,
      allocateN cfg sysNew j (deallocateAll ps pool heap).1 (deallocateAll ps pool heap).2
        = some (ps.reverse.take j, { pool with freeSlots_ := hd },
            (deallocateAll ps pool heap).2)) ∧
    allocateN cfg sysNew ps.length (deallocateAll ps pool heap).1
        (deallocateAll ps pool heap).2
      = some (ps.reverse, pool, (deallocateAll ps pool heap).2) := by
  obtain ⟨fl, inv⟩ := r.inv hv hs
  exact lifo_core cfg sysNew pool heap ps
    (fun p hp => inv.slot_ne_zero hv (List.mem_append_left _ (hlive p hp))) hnd

theorem reachableLive_example :
    ReachableLive cfg64 sysPages poolA2 heapA [4120, 4104] :=
  ReachableLive.alloc 1 0
    (ReachableLive.alloc 1 0 (ReachableLive.fresh heapZero rfl) allocate_fresh_example)
    allocate_second_example

theorem free_list_lifo_witness :
    allocateN cfg64 sysPages [4104, 4120].length (deallocateAll [4104, 4120] poolA2 heapA).1
        (deallocateAll [4104, 4120] poolA2 heapA).2
      = some ([4104, 4120].reverse, poolA2, (deallocateAll [4104, 4120] poolA2 heapA).2) :=
  (free_list_lifo cfg64_valid sysPages_valid reachableLive_example [4104, 4120]
    (by decide) (by decide)).2.2

/-! ### The block chain and the destructor -/

/-- C7, within the contract: in a state reached from a fresh pool by calls of
`allocate` and by calls of `deallocate` on live slots, the blocks acquired are
pairwise distinct, they are what the calls of `::operator new` returned, the
block chain lists exactly them, newest first, and the destructor, given fuel
for each of them, ends and releases exactly them, each once. -/
theorem destructor_releases_acquired {cfg : Config} {sysNew : SysNew} (hv : cfg.Valid)
    (hs : SysNew.Valid cfg sysNew) {pool : Pool} {heap : Heap} {live : List Nat}
    (r : ReachableLive cfg sysNew pool heap live) :
    heap.acquired.Nodup ∧
    heap.acquired.reverse.map some = (List.range heap.acquired.length).map sysNew ∧
    chainFrom heap.next pool.currentBlock_ heap.acquired ∧
    ∀ fuel, heap.acquired.length ≤ fuel → destructor fuel pool heap = some heap.acquired := by
  obtain ⟨fl, inv⟩ := r.inv hv hs
  exact ⟨inv.blocksNodup, inv.log, inv.blocks,
    fun fuel hf => destroyWalk_of_chainFrom _ _ _ inv.blocks hf⟩

theorem destructor_releases_acquired_witness :
    heapA.acquired.Nodup ∧
    heapA.acquired.reverse.map some = (List.range heapA.acquired.length).map sysPages ∧
    chainFrom heapA.next poolA2.currentBlock_ heapA.acquired ∧
    ∀ fuel, heapA.acquired.length ≤ fuel → destructor fuel poolA2 heapA = some heapA.acquired :=
  destructor_releases_acquired cfg64_valid sysPages_valid reachableLive_example

theorem allocate_third_example :
    allocate cfg64 sysPages poolA2 heapA 1 0 = some (4136, poolA3, heapA) := by
  rfl

theorem allocate_fourth_example :
    allocate cfg64 sysPages poolA3 heapA 1 0 = some (8200, poolB, heapA4) := by
  rfl

/-- C7 as stated fails: after four calls of `allocate()`, which acquire the
blocks at 4096 and 8192, the call `deallocate(8192)` with the address of the
newest block overwrites the link in its header, and the destructor releases
the block at 8192 only. -/
theorem destructor_misses_block :
    Reachable cfg64 sysPages (deallocate poolB heapA4 8192 1).1 (deallocate poolB heapA4 8192 1).2 ∧
    (deallocate poolB heapA4 8192 1).2.acquired = [8192, 4096] ∧
    destructor 2 (deallocate poolB heapA4 8192 1).1 (deallocate poolB heapA4 8192 1).2
      = some [8192] ∧
    ∀ fuel, destructor fuel (deallocate poolB heapA4 8192 1).1 (deallocate poolB heapA4 8192 1).2
      ≠ some (deallocate poolB heapA4 8192 1).2.acquired := by
  refine ⟨?_, rfl, rfl, ?_⟩
  · exact Reachable.dealloc 8192 1
      (Reachable.alloc 1 0
        (Reachable.alloc 1 0
          (Reachable.alloc 1 0
            (Reachable.alloc 1 0 (Reachable.fresh heapZero rfl) allocate_fresh_example)
            allocate_second_example)
          allocate_third_example)
        allocate_fourth_example)
  · intro fuel
    cases fuel with
    | zero => intro h; cases h
    | succ fuel =>
      intro h
      have e : destructor (fuel + 1) (deallocate poolB heapA4 8192 1).1
          (deallocate poolB heapA4 8192 1).2 = some [8192] := by
        show destroyWalk _ (fuel + 1) 8192 = some [8192]
        rw [destroyWalk_step _ fuel (by decide)]
        have e0 : (deallocate poolB heapA4 8192 1).2.next 8192 = 0 := rfl
        rw [e0, destroyWalk_null]
        rfl
      rw [e] at h
      cases h

/-! ### The block boundary -/

/-- C3 as stated fails: with `BlockSize = 64` and 16-byte slots the header takes
room in the block, a block holds three slots, and of four calls of
`allocate()` on a fresh pool the fourth acquires the second block. -/
theorem fourth_allocate_acquires_second_block :
    (allocateN cfg64 sysPages 3 defaultConstruct heapZero).map
        (fun r => (r.1, r.2.2.acquired)) = some ([4104, 4120, 4136], [4096]) ∧
    (allocateN cfg64 sysPages 4 defaultConstruct heapZero).map
        (fun r => (r.1, r.2.2.acquired)) = some ([4104, 4120, 4136, 8200], [8192, 4096]) ∧
    (allocateN cfg64 sysPages 4 defaultConstruct heapZero).map
        (fun r => r.2.2.acquired.length) ≠ some 1 := by
  refine ⟨rfl, rfl, ?_⟩
  decide

/-- C3, amended: with `BlockSize = 64` and 16-byte slots, on a fresh pool and
with no `deallocate` in between, the first three calls of `allocate()` acquire
exactly one block in total, and the fourth call acquires the second block. -/
theorem three_slots_per_block {cfg : Config} {sysNew : SysNew} (hv : cfg.Valid)
    (hs : SysNew.Valid cfg sysNew) (hB : cfg.BlockSize = 64) (hS : cfg.slotSize = 16)
    (heap : Heap) (h0 : heap.acquired = []) {B1 B2 : Nat}
    (h1 : sysNew 0 = some B1) (h2 : sysNew 1 = some B2) :
    (allocateN cfg sysNew 0 defaultConstruct heap).map (fun r => r.2.2.acquired) = some [] ∧
    (allocateN cfg sysNew 1 defaultConstruct heap).map (fun r => r.2.2.acquired) = some [B1] ∧
    (allocateN cfg sysNew 2 defaultConstruct heap).map (fun r => r.2.2.acquired) = some [B1] ∧
    (allocateN cfg sysNew 3 defaultConstruct heap).map (fun r => r.2.2.acquired) = some [B1] ∧
    (allocateN cfg sysNew 4 defaultConstruct heap).map (fun r => r.2.2.acquired)
      = some [B2, B1] := by
  have hr1 := hs.inRange 0 B1 h1
  obtain ⟨f1, f2, _⟩ := firstSlot_bounds hv (hs.aligned _ _ h1) hr1
  have hA := hv.align_le_size
  rw [hB] at hr1
  have hP := hv.ptr_pos
  rw [hS] at hA
  have s1 := allocate_block hv hs defaultConstruct heap 1 0 rfl (le_refl _)
    (by rw [h0]; exact h1)
  have a2 : addW cfg (firstSlot cfg B1 + cfg.slotSize) cfg.slotSize
      = firstSlot cfg B1 + cfg.slotSize + cfg.slotSize := addW_of_lt (by rw [hS]; omega)
  have a3 : addW cfg (firstSlot cfg B1 + cfg.slotSize + cfg.slotSize) cfg.slotSize
      = firstSlot cfg B1 + cfg.slotSize + cfg.slotSize + cfg.slotSize :=
    addW_of_lt (by rw [hS]; omega)
  have s2 := allocate_bump cfg sysNew
    { currentBlock_ := B1, currentSlot_ := firstSlot cfg B1 + cfg.slotSize,
      lastSlot_ := B1 + cfg.BlockSize - cfg.slotSize + 1, freeSlots_ := 0 }
    { next := store heap.next B1 defaultConstruct.currentBlock_, acquired := B1 :: heap.acquired }
    1 0 rfl (by show firstSlot cfg B1 + cfg.slotSize < B1 + cfg.BlockSize - cfg.slotSize + 1
                rw [hB, hS]; omega)
  have s3 := allocate_bump cfg sysNew
    { currentBlock_ := B1, currentSlot_ := firstSlot cfg B1 + cfg.slotSize + cfg.slotSize,
      lastSlot_ := B1 + cfg.BlockSize - cfg.slotSize + 1, freeSlots_ := 0 }
    { next := store heap.next B1 defaultConstruct.currentBlock_, acquired := B1 :: heap.acquired }
    1 0 rfl (by show firstSlot cfg B1 + cfg.slotSize + cfg.slotSize
                  < B1 + cfg.BlockSize - cfg.slotSize + 1
                rw [hB, hS]; omega)
  have s4 := allocate_block hv hs
    { currentBlock_ := B1,
      currentSlot_ := firstSlot cfg B1 + cfg.slotSize + cfg.slotSize + cfg.slotSize,
      lastSlot_ := B1 + cfg.BlockSize - cfg.slotSize + 1, freeSlots_ := 0 }
    { next := store heap.next B1 defaultConstruct.currentBlock_, acquired := B1 :: heap.acquired }
    1 0 (B := B2) rfl
    (by show B1 + cfg.BlockSize - cfg.slotSize + 1
          ≤ firstSlot cfg B1 + cfg.slotSize + cfg.slotSize + cfg.slotSize
        rw [hB, hS]; omega)
    (by show sysNew (B1 :: heap.acquired).length = some B2
        rw [h0]; exact h2)
  simp only [a2] at s2
  simp only [a3] at s3
  simp only [h0] at s1 s2 s3 s4
  refine ⟨?_, ?_, ?_, ?_, ?_⟩
  · simp [allocateN, h0]
  · simp [allocateN, s1, h0]
  · simp [allocateN, s1, s2, h0]
  · simp [allocateN, s1, s2, s3, h0]
  · simp [allocateN, s1, s2, s3, s4, h0]

theorem three_slots_per_block_witness :
    (allocateN cfg64 sysPages 0 defaultConstruct heapZero).map (fun r => r.2.2.acquired)
      = some [] ∧
    (allocateN cfg64 sysPages 1 defaultConstruct heapZero).map (fun r => r.2.2.acquired)
      = some [4096] ∧
    (allocateN cfg64 sysPages 2 defaultConstruct heapZero).map (fun r => r.2.2.acquired)
      = some [4096] ∧
    (allocateN cfg64 sysPages 3 defaultConstruct heapZero).map (fun r => r.2.2.acquired)
      = some [4096] ∧
    (allocateN cfg64 sysPages 4 defaultConstruct heapZero).map (fun r => r.2.2.acquired)
      = some [8192, 4096] :=
  three_slots_per_block cfg64_valid sysPages_valid rfl rfl heapZero rfl rfl rfl

/-! ### Move assignment -/

theorem objsABf_reached :
    allocate cfg64 sysPages defaultConstruct heapZero 1 0 = some (4104, objsABf 1, heapA) ∧
    allocate cfg64 sysPages defaultConstruct heapA 1 0 = some (8200, poolB, heapAB) ∧
    deallocate poolB heapAB 8200 1 = (objsABf 2, heapABf) :=
  ⟨rfl, rfl, rfl⟩

/-- C5 as stated fails: after `dst = std::move(src)` with `dst` a pool that owns
the block at 4096 and `src` a pool that owns the block at 8192, `src` is not an
empty pool: it owns the block at 4096, its cursor, end marker and free-list
head are what they were, and its destructor releases the block at 4096. -/
theorem moveAssign_source_not_empty :
    moveAssign objsABf 1 2 2 ≠ defaultConstruct ∧
    (moveAssign objsABf 1 2 2).currentBlock_ = 4096 ∧
    (moveAssign objsABf 1 2 2).currentSlot_ = 8216 ∧
    (moveAssign objsABf 1 2 2).lastSlot_ = 8241 ∧
    (moveAssign objsABf 1 2 2).freeSlots_ = 8200 ∧
    destructor 1 (moveAssign objsABf 1 2 2) heapABf = some [4096] := by
  refine ⟨by decide, rfl, rfl, rfl, rfl, rfl⟩

/-- C5, amended: after `dst = std::move(src)` between two distinct pools, `dst`
holds the block chain, cursor, end marker and free list that `src` held
before, `src` holds the block chain that `dst` held before, so that destroying
`src` releases exactly the blocks `dst` owned before (nothing when `dst` owned
none), and no other pool object is touched. -/
theorem moveAssign_transfers (objs : Nat → Pool) (this other : Nat) (h : this ≠ other) :
    moveAssign objs this other this = objs other ∧
    (moveAssign objs this other other).currentBlock_ = (objs this).currentBlock_ ∧
    (∀ fuel heap, destructor fuel (moveAssign objs this other other) heap
      = destructor fuel (objs this) heap) ∧
    ((objs this).currentBlock_ = 0 →
      ∀ fuel heap, destructor fuel (moveAssign objs this other other) heap = some []) ∧
    ∀ x, x ≠ this → x ≠ other → moveAssign objs this other x = objs x := by
  have e1 : moveAssign objs this other this = objs other := by
    simp [moveAssign, h]
  have e2 : (moveAssign objs this other other).currentBlock_ = (objs this).currentBlock_ := by
    simp [moveAssign, h, Ne.symm h]
  refine ⟨e1, e2, ?_, ?_, ?_⟩
  · intro fuel heap
    simp only [destructor, e2]
  · intro hz fuel heap
    simp only [destructor, e2, hz]
    exact destroyWalk_null heap.next fuel
  · intro x hx1 hx2
    simp [moveAssign, h, hx1, hx2]

theorem moveAssign_transfers_witness :
    moveAssign objsABf 1 2 1 = objsABf 2 ∧
    (moveAssign objsABf 1 2 2).currentBlock_ = (objsABf 1).currentBlock_ ∧
    (∀ fuel heap, destructor fuel (moveAssign objsABf 1 2 2) heap
      = destructor fuel (objsABf 1) heap) ∧
    ((objsABf 1).currentBlock_ = 0 →
      ∀ fuel heap, destructor fuel (moveAssign objsABf 1 2 2) heap = some []) ∧
    ∀ x, x ≠ 1 → x ≠ 2 → moveAssign objsABf 1 2 x = objsABf x :=
  moveAssign_transfers objsABf 1 2 (by decide)

/-! ### The paths of `allocate`, and its unused arguments -/

/-- With an empty free list `allocate` leaves it empty, returns the slot at the
cursor and moves the cursor one slot on; it acquires no block or one. -/
theorem allocate_of_empty_free (cfg : Config) (sysNew : SysNew) (pool : Pool) (heap : Heap)
    (n hint : Nat) (hfs : pool.freeSlots_ = 0) {p : Nat} {pool1 : Pool} {heap1 : Heap}
    (h : allocate cfg sysNew pool heap n hint = some (p, pool1, heap1)) :
    pool1.freeSlots_ = 0 ∧ pool1.currentSlot_ = addW cfg p cfg.slotSize ∧
    ((p = pool.currentSlot_ ∧ pool.currentSlot_ < pool.lastSlot_ ∧
        pool1.currentBlock_ = pool.currentBlock_ ∧ pool1.lastSlot_ = pool.lastSlot_ ∧
        heap1 = heap) ∨
     (pool.lastSlot_ ≤ pool.currentSlot_ ∧
        ∃ B, sysNew heap.acquired.length = some B ∧ heap1.acquired = B :: heap.acquired ∧
          pool1.currentBlock_ = B ∧ heap1.next = store heap.next B pool.currentBlock_)) := by
  by_cases hc : pool.currentSlot_ < pool.lastSlot_
  · rw [allocate_bump cfg sysNew pool heap n hint hfs hc] at h
    cases h
    exact ⟨hfs, rfl, Or.inl ⟨rfl, hc, rfl, rfl, rfl⟩⟩
  · have hc1 : pool.lastSlot_ ≤ pool.currentSlot_ := Nat.le_of_not_lt hc
    cases hn : sysNew heap.acquired.length with
    | none =>
      rw [allocate_throw cfg sysNew pool heap n hint hfs hc1 hn] at h
      cases h
    | some B =>
      simp only [allocate, hfs, ne_eq, not_true_eq_false, if_false, ge_iff_le, hc1, if_true,
        allocateBlock, hn] at h
      cases h
      exact ⟨rfl, rfl, Or.inr ⟨hc1, B, rfl, rfl, rfl, rfl⟩⟩

/-- C11: when the free list is not empty, `allocate` returns its head, makes the
pointer stored there the new head and leaves the other three members, the
memory and the record of acquired blocks as they were, whatever the cursor and
the end marker are; when the free list is empty, `allocate` leaves it empty,
returns the slot at the cursor (the given one, or the one set by
`allocateBlock`) and moves the cursor one slot on, and it acquires no block or
exactly one. -/
theorem allocate_paths (cfg : Config) (sysNew : SysNew) (pool : Pool) (heap : Heap)
    (n hint : Nat) :
    (pool.freeSlots_ ≠ 0 →
      allocate cfg sysNew pool heap n hint
        = some (pool.freeSlots_,
            { currentBlock_ := pool.currentBlock_, currentSlot_ := pool.currentSlot_,
              lastSlot_ := pool.lastSlot_, freeSlots_ := heap.next pool.freeSlots_ }, heap)) ∧
    (pool.freeSlots_ = 0 → ∀ p pool1 heap1,
      allocate cfg sysNew pool heap n hint = some (p, pool1, heap1) →
        pool1.freeSlots_ = 0 ∧ pool1.currentSlot_ = addW cfg p cfg.slotSize ∧
        ((p = pool.currentSlot_ ∧ pool.currentSlot_ < pool.lastSlot_ ∧
            pool1.currentBlock_ = pool.currentBlock_ ∧ pool1.lastSlot_ = pool.lastSlot_ ∧
            heap1 = heap) ∨
         (pool.lastSlot_ ≤ pool.currentSlot_ ∧
            ∃ B, sysNew heap.acquired.length = some B ∧ heap1.acquired = B :: heap.acquired ∧
              pool1.currentBlock_ = B ∧ heap1.next = store heap.next B pool.currentBlock_))) := by
  refine ⟨fun h => allocate_pop cfg sysNew pool heap n hint h, ?_⟩
  intro hfs p pool1 heap1 h
  exact allocate_of_empty_free cfg sysNew pool heap n hint hfs h

theorem allocate_paths_witness :
    allocate cfg64 sysPages (deallocate poolA heapA 4104 1).1 (deallocate poolA heapA 4104 1).2 1 0
      = some (4104, poolA, (deallocate poolA heapA 4104 1).2) :=
  (allocate_paths cfg64 sysPages (deallocate poolA heapA 4104 1).1
    (deallocate poolA heapA 4104 1).2 1 0).1 (by decide)

/-- C12: `allocate(n, hint)` returns what `allocate(1, nullptr)` returns and
leaves the same state, for every state, `n` and `hint`: one slot is issued, the
cursor is either untouched or one slot size past the slot issued, and when no
block is acquired it is either untouched or one slot size past where it was;
`deallocate(p, n)` does what `deallocate(p, 1)` does. -/
theorem count_and_hint_ignored (cfg : Config) (sysNew : SysNew) (pool : Pool) (heap : Heap)
    (n hint p : Nat) :
    allocate cfg sysNew pool heap n hint = allocate cfg sysNew pool heap 1 0 ∧
    (∀ q pool1 heap1, allocate cfg sysNew pool heap n hint = some (q, pool1, heap1) →
      (pool1.currentSlot_ = pool.currentSlot_ ∨
        pool1.currentSlot_ = addW cfg q cfg.slotSize) ∧
      (heap1.acquired = heap.acquired →
        pool1.currentSlot_ = pool.currentSlot_ ∨
        pool1.currentSlot_ = addW cfg pool.currentSlot_ cfg.slotSize)) ∧
    deallocate pool heap p n = deallocate pool heap p 1 := by
  refine ⟨rfl, ?_, rfl⟩
  intro q pool1 heap1 h
  by_cases hfs : pool.freeSlots_ = 0
  · obtain ⟨_, e, hcase⟩ := allocate_of_empty_free cfg sysNew pool heap n hint hfs h
    refine ⟨Or.inr e, fun hacq => ?_⟩
    rcases hcase with ⟨e1, _⟩ | ⟨_, B, _, e2, _⟩
    · rw [e1] at e
      exact Or.inr e
    · rw [e2] at hacq
      have := congrArg List.length hacq
      simp at this
  · rw [allocate_pop cfg sysNew pool heap n hint hfs] at h
    cases h
    exact ⟨Or.inl rfl, fun _ => Or.inl rfl⟩

theorem count_and_hint_ignored_witness :
    allocate cfg64 sysPages poolA heapA 5 77 = allocate cfg64 sysPages poolA heapA 1 0 ∧
    deallocate poolA heapA 4104 9 = deallocate poolA heapA 4104 1 :=
  ⟨(count_and_hint_ignored cfg64 sysPages poolA heapA 5 77 4104).1,
   (count_and_hint_ignored cfg64 sysPages poolA heapA 5 77 4104).2.2⟩

/-! ### The padding -/

/-- C16: for an address `a` of `w` bits and an alignment `A = 2 ^ k` with
`k + 1 ≤ w`, `padPointer(a, A)` is `((A - a) mod 2 ^ w) mod A`, it is below `A`,
it is the least `q` with `A ∣ a + q`, and it is zero exactly when `a` is a
multiple of `A`. -/
theorem padPointer_least (cfg : Config) (a A k : Nat) (ha : a < 2 ^ cfg.wordBits)
    (hA : A = 2 ^ k) (hk : k + 1 ≤ cfg.wordBits) :
    padPointer cfg a A = (A + 2 ^ cfg.wordBits - a) % 2 ^ cfg.wordBits % A ∧
    padPointer cfg a A < A ∧
    A ∣ a + padPointer cfg a A ∧
    (∀ q, A ∣ a + q → padPointer cfg a A ≤ q) ∧
    (padPointer cfg a A = 0 ↔ A ∣ a) := by
  have hpos : 0 < A := by rw [hA]; exact Nat.pow_pos (by decide)
  have hdvd : A ∣ 2 ^ cfg.wordBits := by rw [hA]; exact pow_dvd_pow 2 (by omega)
  have hlt : A < 2 ^ cfg.wordBits := by
    rw [hA]; exact Nat.pow_lt_pow_right (by decide) (by omega)
  obtain ⟨h1, h2⟩ := padPointer_spec cfg hpos hdvd ha
  have hleast : ∀ q, A ∣ a + q → padPointer cfg a A ≤ q := by
    intro q hq
    by_contra hcon
    have hqlt : q < padPointer cfg a A := Nat.lt_of_not_le hcon
    have hd : A ∣ (a + padPointer cfg a A) - (a + q) := Nat.dvd_sub' h2 hq
    have hle : A ≤ (a + padPointer cfg a A) - (a + q) := Nat.le_of_dvd (by omega) hd
    omega
  refine ⟨?_, h1, h2, hleast, ?_⟩
  · simp only [padPointer, subW, wrap]
    rw [Nat.mod_mod, Nat.mod_eq_of_lt ha, Nat.mod_eq_of_lt hlt]
  · constructor
    · intro h0
      rw [h0] at h2
      exact h2
    · intro hd
      exact Nat.le_zero.mp (hleast 0 hd)

theorem padPointer_least_witness :
    padPointer cfg64 4104 16 = (16 + 2 ^ cfg64.wordBits - 4104) % 2 ^ cfg64.wordBits % 16 ∧
    padPointer cfg64 4104 16 < 16 ∧
    16 ∣ 4104 + padPointer cfg64 4104 16 ∧
    (∀ q, 16 ∣ 4104 + q → padPointer cfg64 4104 16 ≤ q) ∧
    (padPointer cfg64 4104 16 = 0 ↔ 16 ∣ 4104) :=
  padPointer_least cfg64 4104 16 4 (by norm_num [cfg64]) (by norm_num) (by decide)

/-! ### Move assignment and the blocks -/

/-- C19: after `dst = std::move(src)` between two distinct pools the heads of
the two block chains are exchanged: the destructor of `dst` releases what the
destructor of `src` released before and the other way round, so when the two
chains were free of repetitions and disjoint, the two destructors together
release the same blocks as before, each once; and self-assignment changes no
pool. -/
theorem moveAssign_keeps_blocks (objs : Nat → Pool) (this other : Nat) :
    (this ≠ other →
      (moveAssign objs this other this).currentBlock_ = (objs other).currentBlock_ ∧
      (moveAssign objs this other other).currentBlock_ = (objs this).currentBlock_ ∧
      ∀ fuel heap bd bs, destructor fuel (objs this) heap = some bd →
        destructor fuel (objs other) heap = some bs → (bd ++ bs).Nodup →
          destructor fuel (moveAssign objs this other this) heap = some bs ∧
          destructor fuel (moveAssign objs this other other) heap = some bd ∧
          List.Perm (bs ++ bd) (bd ++ bs) ∧ (bs ++ bd).Nodup) ∧
    moveAssign objs this this = objs := by
  refine ⟨?_, by simp [moveAssign]⟩
  intro h
  have e1 : (moveAssign objs this other this).currentBlock_ = (objs other).currentBlock_ := by
    simp [moveAssign, h]
  have e2 : (moveAssign objs this other other).currentBlock_ = (objs this).currentBlock_ := by
    simp [moveAssign, h, Ne.symm h]
  refine ⟨e1, e2, ?_⟩
  intro fuel heap bd bs hd hs hnd
  have hperm : List.Perm (bs ++ bd) (bd ++ bs) := List.perm_append_comm
  refine ⟨?_, ?_, hperm, hperm.nodup_iff.mpr hnd⟩
  · simp only [destructor, e1]
    exact hs
  · simp only [destructor, e2]
    exact hd

theorem moveAssign_keeps_blocks_witness :
    (moveAssign objsABf 1 2 1).currentBlock_ = (objsABf 2).currentBlock_ ∧
    (moveAssign objsABf 1 2 2).currentBlock_ = (objsABf 1).currentBlock_ ∧
    destructor 1 (moveAssign objsABf 1 2 1) heapABf = some [8192] ∧
    destructor 1 (moveAssign objsABf 1 2 2) heapABf = some [4096] :=
  ⟨((moveAssign_keeps_blocks objsABf 1 2).1 (by decide)).1,
   ((moveAssign_keeps_blocks objsABf 1 2).1 (by decide)).2.1,
   (((moveAssign_keeps_blocks objsABf 1 2).1 (by decide)).2.2 1 heapABf [4096] [8192]
      rfl rfl (by decide)).1,
   (((moveAssign_keeps_blocks objsABf 1 2).1 (by decide)).2.2 1 heapABf [4096] [8192]
      rfl rfl (by decide)).2.1⟩

/-! ### The cursor -/

theorem CursorInv.ofFresh {cfg : Config} {sysNew : SysNew} (heap : Heap) (h : heap.acquired = []) :
    CursorInv cfg sysNew defaultConstruct heap where
  log := by simp [h]
  cursorNone := fun _ => ⟨rfl, rfl, rfl⟩
  cursorSome := by intro B rest e; rw [h] at e; cases e

/-- The cursor invariant does not depend on the free-list head nor on the
memory. -/
theorem CursorInv.congr {cfg : Config} {sysNew : SysNew} {pool pool1 : Pool} {heap heap1 : Heap}
    (inv : CursorInv cfg sysNew pool heap) (ha : heap1.acquired = heap.acquired)
    (h1 : pool1.currentBlock_ = pool.currentBlock_) (h2 : pool1.currentSlot_ = pool.currentSlot_)
    (h3 : pool1.lastSlot_ = pool.lastSlot_) : CursorInv cfg sysNew pool1 heap1 where
  log := by rw [ha]; exact inv.log
  cursorNone := by rw [ha, h1, h2, h3]; exact inv.cursorNone
  cursorSome := by rw [ha, h1, h2, h3]; exact inv.cursorSome

/-- The bump path of `allocate`: the slot it returns is a whole number of slot
sizes after the first slot of the newest block and lies inside this block. -/
theorem CursorInv.bumpStep {cfg : Config} {sysNew : SysNew} {pool : Pool} {heap : Heap}
    (hv : cfg.Valid) (hs : SysNew.Valid cfg sysNew) (inv : CursorInv cfg sysNew pool heap)
    (hfs : pool.freeSlots_ = 0) {n hint p : Nat} {pool1 : Pool} {heap1 : Heap}
    (h : allocate cfg sysNew pool heap n hint = some (p, pool1, heap1)) :
    CursorInv cfg sysNew pool1 heap1 ∧ pool1.freeSlots_ = 0 ∧
    ∃ B rest k, heap1.acquired = B :: rest ∧ pool1.currentBlock_ = B ∧
      p = firstSlot cfg B + k * cfg.slotSize ∧ B + cfg.ptrSize ≤ p ∧
      p + cfg.slotSize ≤ B + cfg.BlockSize ∧ pool1.currentSlot_ = p + cfg.slotSize := by
  have hS := hv.size_pos
  have hbg := hv.block_ge
  have hAS := hv.align_le_size
  by_cases hc : pool.currentSlot_ < pool.lastSlot_
  · rw [allocate_bump cfg sysNew pool heap n hint hfs hc] at h
    cases h
    cases hacq : heap.acquired with
    | nil =>
      obtain ⟨_, e1, e2⟩ := inv.cursorNone hacq
      omega
    | cons B rest =>
      obtain ⟨c0, c1, k, hk, c2, c3⟩ := inv.cursorSome B rest hacq
      have hBmem : B ∈ heap.acquired := by rw [hacq]; exact List.mem_cons_self _ _
      obtain ⟨i, _, hi⟩ := log_mem inv.log hBmem
      have hr := hs.inRange _ _ hi
      obtain ⟨f1, _, _⟩ := firstSlot_bounds hv (hs.aligned _ _ hi) hr
      have hfit : pool.currentSlot_ + cfg.slotSize ≤ B + cfg.BlockSize := by omega
      have hadd : addW cfg pool.currentSlot_ cfg.slotSize = pool.currentSlot_ + cfg.slotSize :=
        addW_of_lt (by omega)
      have hle : firstSlot cfg B ≤ pool.currentSlot_ := by
        rw [c2]; exact Nat.le_add_right _ _
      refine ⟨?_, hfs, B, rest, k, rfl, c0, c2, by omega, hfit, hadd⟩
      exact {
        log := inv.log
        cursorNone := fun e => by rw [hacq] at e; cases e
        cursorSome := by
          intro B1 rest1 e
          rw [hacq] at e
          cases e
          refine ⟨c0, c1, k + 1, by omega, ?_, ?_⟩
          · show addW cfg pool.currentSlot_ cfg.slotSize = _
            rw [hadd, c2, Nat.add_mul, Nat.one_mul, Nat.add_assoc]
          · show addW cfg pool.currentSlot_ cfg.slotSize ≤ _
            rw [hadd]; exact hfit }
  · have hc1 : pool.lastSlot_ ≤ pool.currentSlot_ := Nat.le_of_not_lt hc
    cases hn : sysNew heap.acquired.length with
    | none =>
      rw [allocate_throw cfg sysNew pool heap n hint hfs hc1 hn] at h
      cases h
    | some B =>
      rw [allocate_block hv hs pool heap n hint hfs hc1 hn] at h
      cases h
      have hr := hs.inRange _ _ hn
      obtain ⟨f1, f2, _⟩ := firstSlot_bounds hv (hs.aligned _ _ hn) hr
      refine ⟨?_, rfl, B, heap.acquired, 0, rfl, rfl, by simp, f1, by omega, rfl⟩
      exact {
        log := log_cons inv.log hn
        cursorNone := fun e => by cases e
        cursorSome := by
          intro B1 rest1 e
          cases e
          refine ⟨rfl, rfl, 1, le_refl _, ?_, ?_⟩
          · show firstSlot cfg B + cfg.slotSize = firstSlot cfg B + 1 * cfg.slotSize
            rw [Nat.one_mul]
          · show firstSlot cfg B + cfg.slotSize ≤ B + cfg.BlockSize
            omega }

theorem CursorInv.afterAllocate {cfg : Config} {sysNew : SysNew} {pool : Pool} {heap : Heap}
    (hv : cfg.Valid) (hs : SysNew.Valid cfg sysNew) (inv : CursorInv cfg sysNew pool heap)
    {n hint p : Nat} {pool1 : Pool} {heap1 : Heap}
    (h : allocate cfg sysNew pool heap n hint = some (p, pool1, heap1)) :
    CursorInv cfg sysNew pool1 heap1 := by
  by_cases hfs : pool.freeSlots_ = 0
  · exact (inv.bumpStep hv hs hfs h).1
  · rw [allocate_pop cfg sysNew pool heap n hint hfs] at h
    cases h
    exact inv.congr rfl rfl rfl rfl

theorem CursorInv.afterDeallocate {cfg : Config} {sysNew : SysNew} {pool : Pool} {heap : Heap}
    (inv : CursorInv cfg sysNew pool heap) (p n : Nat) :
    CursorInv cfg sysNew (deallocate pool heap p n).1 (deallocate pool heap p n).2 := by
  by_cases hp : p = 0
  · simp only [deallocate, hp, ne_eq, not_true_eq_false, if_false]
    exact inv
  · simp only [deallocate, hp, ne_eq, not_false_eq_true, if_true]
    exact inv.congr rfl rfl rfl rfl

/-- Every state reached by calls of `allocate` and `deallocate`, whatever their
arguments, satisfies the cursor invariant. -/
theorem Reachable.cursorInv {cfg : Config} {sysNew : SysNew} (hv : cfg.Valid)
    (hs : SysNew.Valid cfg sysNew) {pool : Pool} {heap : Heap}
    (r : Reachable cfg sysNew pool heap) : CursorInv cfg sysNew pool heap := by
  induction r with
  | fresh heap h => exact CursorInv.ofFresh heap h
  | alloc n hint r h ih => exact ih.afterAllocate hv hs h
  | dealloc p n r ih => exact ih.afterDeallocate p n

theorem reachable_example : Reachable cfg64 sysPages poolA3 heapA :=
  Reachable.alloc 1 0
    (Reachable.alloc 1 0
      (Reachable.alloc 1 0 (Reachable.fresh heapZero rfl) allocate_fresh_example)
      allocate_second_example)
    allocate_third_example

/-- C13 as stated fails: after three calls of `allocate()` on the pool of
`cfg64` the block at 4096 is used up, and the cursor 4152 is not null and not
below the end marker 4145. -/
theorem cursor_reaches_end_marker :
    Reachable cfg64 sysPages poolA3 heapA ∧
    poolA3.currentSlot_ = 4152 ∧ poolA3.lastSlot_ = 4145 ∧
    ¬ (poolA3.currentSlot_ = 0 ∨
        (firstSlot cfg64 poolA3.currentBlock_ ≤ poolA3.currentSlot_ ∧
          poolA3.currentSlot_ < poolA3.lastSlot_)) := by
  refine ⟨reachable_example, rfl, rfl, ?_⟩
  intro h
  rcases h with h | ⟨_, h⟩
  · exact absurd h (by decide)
  · exact absurd h (by decide)

/-- C13, amended: in every state reached from a fresh pool by calls of
`allocate` and `deallocate`, the cursor is null or lies from the first slot of
the current block on and below the end marker plus one slot size. -/
theorem cursor_bounds {cfg : Config} {sysNew : SysNew} (hv : cfg.Valid)
    (hs : SysNew.Valid cfg sysNew) {pool : Pool} {heap : Heap}
    (r : Reachable cfg sysNew pool heap) :
    pool.currentSlot_ = 0 ∨
      (firstSlot cfg pool.currentBlock_ ≤ pool.currentSlot_ ∧
        pool.currentSlot_ < pool.lastSlot_ + cfg.slotSize) := by
  have inv := r.cursorInv hv hs
  have hS := hv.size_pos
  have hbg := hv.block_ge
  cases hacq : heap.acquired with
  | nil => exact Or.inl (inv.cursorNone hacq).2.1
  | cons B rest =>
    obtain ⟨c0, c1, k, _, c2, c3⟩ := inv.cursorSome B rest hacq
    refine Or.inr ⟨?_, ?_⟩
    · rw [c0, c2]
      exact Nat.le_add_right _ _
    · rw [c1]
      omega

theorem cursor_bounds_witness :
    poolA3.currentSlot_ = 0 ∨
      (firstSlot cfg64 poolA3.currentBlock_ ≤ poolA3.currentSlot_ ∧
        poolA3.currentSlot_ < poolA3.lastSlot_ + cfg64.slotSize) :=
  cursor_bounds cfg64_valid sysPages_valid reachable_example

/-! ### Slots lie inside their block -/

/-- C17: in a state reached from a fresh pool, a slot that `allocate` takes from
the cursor lies in the newest block `B`, after the header and before the end:
`B + P ≤ slot` and `slot + S ≤ B + BlockSize`; when the call acquires the block
`B` the slot is the first slot of `B`, which has this room; and the call issues
the slot at the cursor `c` without acquiring a block exactly when
`c + S ≤ B + BlockSize`. -/
theorem bump_slot_inside_block {cfg : Config} {sysNew : SysNew} (hv : cfg.Valid)
    (hs : SysNew.Valid cfg sysNew) {pool : Pool} {heap : Heap}
    (r : Reachable cfg sysNew pool heap) (hfs : pool.freeSlots_ = 0) (n hint : Nat) :
    (∀ p pool1 heap1, allocate cfg sysNew pool heap n hint = some (p, pool1, heap1) →
      heap1.acquired.head? = some pool1.currentBlock_ ∧
      pool1.currentBlock_ + cfg.ptrSize ≤ p ∧
      p + cfg.slotSize ≤ pool1.currentBlock_ + cfg.BlockSize) ∧
    (∀ B, pool.lastSlot_ ≤ pool.currentSlot_ → sysNew heap.acquired.length = some B →
      (allocate cfg sysNew pool heap n hint).map (fun res => (res.1, res.2.2.acquired))
        = some (firstSlot cfg B, B :: heap.acquired) ∧
      B + cfg.ptrSize ≤ firstSlot cfg B ∧
      firstSlot cfg B + cfg.slotSize ≤ B + cfg.BlockSize) ∧
    (∀ B rest, heap.acquired = B :: rest →
      (allocate cfg sysNew pool heap n hint
          = some (pool.currentSlot_,
              { pool with currentSlot_ := pool.currentSlot_ + cfg.slotSize }, heap)
        ↔ pool.currentSlot_ + cfg.slotSize ≤ B + cfg.BlockSize)) := by
  have inv := r.cursorInv hv hs
  have hS := hv.size_pos
  have hbg := hv.block_ge
  have hAS := hv.align_le_size
  refine ⟨?_, ?_, ?_⟩
  · intro p pool1 heap1 h
    obtain ⟨_, _, B, rest, k, e1, e2, _, e4, e5, _⟩ := inv.bumpStep hv hs hfs h
    rw [e1, e2]
    exact ⟨rfl, e4, e5⟩
  · intro B hc hn
    have hr := hs.inRange _ _ hn
    obtain ⟨f1, f2, _⟩ := firstSlot_bounds hv (hs.aligned _ _ hn) hr
    rw [allocate_block hv hs pool heap n hint hfs hc hn]
    exact ⟨rfl, f1, by omega⟩
  · intro B rest hacq
    obtain ⟨c0, c1, k, hk, c2, c3⟩ := inv.cursorSome B rest hacq
    have hBmem : B ∈ heap.acquired := by rw [hacq]; exact List.mem_cons_self _ _
    obtain ⟨i, _, hi⟩ := log_mem inv.log hBmem
    have hr := hs.inRange _ _ hi
    constructor
    · intro h
      by_contra hcon
      have hc1 : pool.lastSlot_ ≤ pool.currentSlot_ := by omega
      cases hn : sysNew heap.acquired.length with
      | none =>
        rw [allocate_throw cfg sysNew pool heap n hint hfs hc1 hn] at h
        cases h
      | some C =>
        rw [allocate_block hv hs pool heap n hint hfs hc1 hn] at h
        have e := congrArg (fun res => res.map (fun x => x.2.2.acquired.length)) h
        simp at e
    · intro hfit
      have hc : pool.currentSlot_ < pool.lastSlot_ := by omega
      rw [allocate_bump cfg sysNew pool heap n hint hfs hc,
        addW_of_lt (show pool.currentSlot_ + cfg.slotSize < 2 ^ cfg.wordBits by omega)]

theorem bump_slot_inside_block_witness :
    (allocate cfg64 sysPages poolA3 heapA 1 0).map (fun res => (res.1, res.2.2.acquired))
        = some (firstSlot cfg64 8192, 8192 :: heapA.acquired) ∧
      8192 + cfg64.ptrSize ≤ firstSlot cfg64 8192 ∧
      firstSlot cfg64 8192 + cfg64.slotSize ≤ 8192 + cfg64.BlockSize :=
  (bump_slot_inside_block cfg64_valid sysPages_valid reachable_example rfl 1 0).2.1 8192
    (by decide) rfl

/-! ### The number of slots of a block -/

theorem allocateN_succ_some (cfg : Config) (sysNew : SysNew) (k : Nat) {pool : Pool}
    {heap : Heap} {p : Nat} {pool1 : Pool} {heap1 : Heap}
    (h : allocate cfg sysNew pool heap 1 0 = some (p, pool1, heap1)) :
    allocateN cfg sysNew (k + 1) pool heap
      = (allocateN cfg sysNew k pool1 heap1).map (fun res => (p :: res.1, res.2.1, res.2.2)) := by
  rw [allocateN]
  simp only [h]
  cases allocateN cfg sysNew k pool1 heap1 with
  | none => rfl
  | some res => rfl

theorem allocateN_succ_none (cfg : Config) (sysNew : SysNew) (k : Nat) {pool : Pool}
    {heap : Heap} (h : allocate cfg sysNew pool heap 1 0 = none) :
    allocateN cfg sysNew (k + 1) pool heap = none := by
  rw [allocateN]
  simp only [h]

theorem allocateN_add (cfg : Config) (sysNew : SysNew) :
    ∀ (a b : Nat) (pool : Pool) (heap : Heap) (ps qs : List Nat) (pool1 pool2 : Pool)
      (heap1 heap2 : Heap),
      allocateN cfg sysNew a pool heap = some (ps, pool1, heap1) →
      allocateN cfg sysNew b pool1 heap1 = some (qs, pool2, heap2) →
      allocateN cfg sysNew (a + b) pool heap = some (ps ++ qs, pool2, heap2) := by
  intro a
  induction a with
  | zero =>
    intro b pool heap ps qs pool1 pool2 heap1 heap2 h1 h2
    simp only [allocateN] at h1
    cases h1
    simpa using h2
  | succ a ih =>
    intro b pool heap ps qs pool1 pool2 heap1 heap2 h1 h2
    cases hal : allocate cfg sysNew pool heap 1 0 with
    | none => rw [allocateN_succ_none cfg sysNew a hal] at h1; cases h1
    | some res =>
      obtain ⟨p, poolm, heapm⟩ := res
      rw [allocateN_succ_some cfg sysNew a hal] at h1
      cases hrec : allocateN cfg sysNew a poolm heapm with
      | none => rw [hrec] at h1; cases h1
      | some res1 =>
        obtain ⟨ps1, poolx, heapx⟩ := res1
        rw [hrec] at h1
        cases h1
        have := ih b poolm heapm ps1 qs poolx pool2 heapx heap2 hrec h2
        rw [Nat.succ_add, allocateN_succ_some cfg sysNew (a + b) hal, this]
        rfl

/-- A state reached by calls of `allocate()` alone from a pool with an empty
free list has an empty free list. -/
theorem allocateN_freeSlots (cfg : Config) (sysNew : SysNew) :
    ∀ (k : Nat) (pool : Pool) (heap : Heap) (ps : List Nat) (pool1 : Pool) (heap1 : Heap),
      pool.freeSlots_ = 0 → allocateN cfg sysNew k pool heap = some (ps, pool1, heap1) →
      pool1.freeSlots_ = 0 := by
  intro k
  induction k with
  | zero =>
    intro pool heap ps pool1 heap1 hfs h
    simp only [allocateN] at h
    cases h
    exact hfs
  | succ k ih =>
    intro pool heap ps pool1 heap1 hfs h
    cases hal : allocate cfg sysNew pool heap 1 0 with
    | none => rw [allocateN_succ_none cfg sysNew k hal] at h; cases h
    | some res =>
      obtain ⟨p, poolm, heapm⟩ := res
      rw [allocateN_succ_some cfg sysNew k hal] at h
      cases hrec : allocateN cfg sysNew k poolm heapm with
      | none => rw [hrec] at h; cases h
      | some res1 =>
        obtain ⟨ps1, poolx, heapx⟩ := res1
        rw [hrec] at h
        cases h
        have hm := (allocate_of_empty_free cfg sysNew pool heap 1 0 hfs hal).1
        exact ih poolm heapm ps1 _ _ hm hrec

/-- The number of slots of a block, from the room after its first slot. -/
theorem slotsPerBlock_eq {cfg : Config} (hv : cfg.Valid) {B : Nat}
    (hB : cfg.ptrSize ∣ B) (hr : B + cfg.BlockSize < 2 ^ cfg.wordBits) :
    slotsPerBlock cfg B = (B + cfg.BlockSize - firstSlot cfg B) / cfg.slotSize := by
  obtain ⟨_, f2, _⟩ := firstSlot_bounds hv hB hr
  have hbg := hv.block_ge
  have hAS := hv.align_le_size
  unfold slotsPerBlock
  unfold firstSlot at f2 ⊢
  congr 1
  omega

/-- While the cursor has room for `i` more slots, `i` calls of `allocate()`
return the slots at the cursor, one slot size apart, and acquire no block. -/
theorem allocateN_bump (cfg : Config) (sysNew : SysNew) (heap : Heap) (cb f B : Nat)
    (hr : B + cfg.BlockSize < 2 ^ cfg.wordBits) (hS : 0 < cfg.slotSize) :
    ∀ (i j : Nat), f + (j + i) * cfg.slotSize ≤ B + cfg.BlockSize →
      allocateN cfg sysNew i
          { currentBlock_ := cb, currentSlot_ := f + j * cfg.slotSize,
            lastSlot_ := B + cfg.BlockSize - cfg.slotSize + 1, freeSlots_ := 0 } heap
        = some ((List.range i).map (fun t => f + (j + t) * cfg.slotSize),
            { currentBlock_ := cb, currentSlot_ := f + (j + i) * cfg.slotSize,
              lastSlot_ := B + cfg.BlockSize - cfg.slotSize + 1, freeSlots_ := 0 }, heap) := by
  intro i
  induction i with
  | zero =>
    intro j _
    simp [allocateN]
  | succ i ih =>
    intro j hfit
    have e1 : (j + (i + 1)) * cfg.slotSize = (j + 1 + i) * cfg.slotSize := by
      rw [Nat.add_comm i 1, Nat.add_assoc]
    have e2 : (j + 1 + i) * cfg.slotSize = j * cfg.slotSize + cfg.slotSize + i * cfg.slotSize := by
      rw [Nat.add_mul, Nat.add_mul, Nat.one_mul]
    have e3 : (j + 1) * cfg.slotSize = j * cfg.slotSize + cfg.slotSize := by
      rw [Nat.add_mul, Nat.one_mul]
    have hlt : f + j * cfg.slotSize < B + cfg.BlockSize - cfg.slotSize + 1 := by
      rw [e1, e2] at hfit
      omega
    have hadd : addW cfg (f + j * cfg.slotSize) cfg.slotSize = f + (j + 1) * cfg.slotSize := by
      rw [addW_of_lt (by rw [e1, e2] at hfit; omega), e3, Nat.add_assoc]
    have hstep := allocate_bump cfg sysNew
      { currentBlock_ := cb, currentSlot_ := f + j * cfg.slotSize,
        lastSlot_ := B + cfg.BlockSize - cfg.slotSize + 1, freeSlots_ := 0 } heap 1 0 rfl hlt
    simp only [hadd] at hstep
    have hrec := ih (j + 1) (by rw [← e1]; exact hfit)
    rw [allocateN_succ_some cfg sysNew i hstep, hrec]
    simp only [Option.map_some', List.range_succ_eq_map, List.map_cons, List.map_map, Nat.add_zero, e1]
    refine congrArg some (Prod.ext ?_ rfl)
    refine congrArg (List.cons _) (List.map_congr_left ?_)
    intro t _
    show f + (j + 1 + t) * cfg.slotSize = f + (j + (t + 1)) * cfg.slotSize
    rw [Nat.add_comm t 1, Nat.add_assoc]

/-- From a state in which the next `allocate()` acquires the block `B`: every
`j` calls with `1 ≤ j ≤ slotsPerBlock` return the first `j` slots of `B` and
acquire `B` only. -/
theorem allocateN_in_block {cfg : Config} {sysNew : SysNew} (hv : cfg.Valid)
    (hs : SysNew.Valid cfg sysNew) (pool : Pool) (heap : Heap) (hfs : pool.freeSlots_ = 0)
    (hc : pool.lastSlot_ ≤ pool.currentSlot_) {B : Nat}
    (h1 : sysNew heap.acquired.length = some B) (i : Nat)
    (hi : i + 1 ≤ slotsPerBlock cfg B) :
    allocateN cfg sysNew (i + 1) pool heap
      = some ((List.range (i + 1)).map (fun t => firstSlot cfg B + t * cfg.slotSize),
          { currentBlock_ := B, currentSlot_ := firstSlot cfg B + (1 + i) * cfg.slotSize,
            lastSlot_ := B + cfg.BlockSize - cfg.slotSize + 1, freeSlots_ := 0 },
          { next := store heap.next B pool.currentBlock_, acquired := B :: heap.acquired }) := by
  have hS := hv.size_pos
  have hr := hs.inRange _ _ h1
  obtain ⟨_, f2, _⟩ := firstSlot_bounds hv (hs.aligned _ _ h1) hr
  have hAS := hv.align_le_size
  have hbg := hv.block_ge
  rw [slotsPerBlock_eq hv (hs.aligned _ _ h1) hr] at hi
  have hmul : (1 + i) * cfg.slotSize ≤ B + cfg.BlockSize - firstSlot cfg B := by
    rw [Nat.add_comm 1 i]
    exact (Nat.le_div_iff_mul_le hS).mp hi
  have hstep := allocate_block hv hs pool heap 1 0 hfs hc h1
  have e1 : firstSlot cfg B + cfg.slotSize = firstSlot cfg B + 1 * cfg.slotSize := by
    rw [Nat.one_mul]
  rw [e1] at hstep
  have hrun := allocateN_bump cfg sysNew
    { next := store heap.next B pool.currentBlock_, acquired := B :: heap.acquired }
    B (firstSlot cfg B) B hr hS i 1 (by omega)
  rw [allocateN_succ_some cfg sysNew i hstep, hrun]
  simp only [Option.map_some', List.range_succ_eq_map, List.map_cons, List.map_map,
    Nat.zero_mul, Nat.add_zero]
  refine congrArg some (Prod.ext ?_ rfl)
  refine congrArg (List.cons _) (List.map_congr_left ?_)
  intro t _
  show firstSlot cfg B + (1 + t) * cfg.slotSize = firstSlot cfg B + (t + 1) * cfg.slotSize
  rw [Nat.add_comm 1 t]

/-- C18: on a fresh pool the first `allocate()` acquires a block; and in a state
reached from a fresh pool by calls of `allocate()` alone, in which the next call
acquires the block `B`, the number `(BlockSize - P - pad) / S` of slots of `B`
is at least 1 and at most `(BlockSize - P) / S`, the next calls up to this
number return the slots of `B` one slot size apart and acquire `B` only, and
the call after them acquires the next block. -/
theorem block_yields_slots {cfg : Config} {sysNew : SysNew} (hv : cfg.Valid)
    (hs : SysNew.Valid cfg sysNew) (heap0 : Heap) (h0 : heap0.acquired = [])
    (k : Nat) (ps : List Nat) (pool : Pool) (heap : Heap)
    (hrun : allocateN cfg sysNew k defaultConstruct heap0 = some (ps, pool, heap))
    (hc : pool.lastSlot_ ≤ pool.currentSlot_) {B C : Nat}
    (h1 : sysNew heap.acquired.length = some B)
    (h2 : sysNew (heap.acquired.length + 1) = some C) :
    (∀ B0, sysNew 0 = some B0 →
      (allocate cfg sysNew defaultConstruct heap0 1 0).map (fun res => res.2.2.acquired)
        = some [B0]) ∧
    1 ≤ slotsPerBlock cfg B ∧
    slotsPerBlock cfg B ≤ (cfg.BlockSize - cfg.ptrSize) / cfg.slotSize ∧
    (∀ j, 1 ≤ j → j ≤ slotsPerBlock cfg B →
      (allocateN cfg sysNew j pool heap).map (fun res => (res.1, res.2.2.acquired))
        = some ((List.range j).map (fun t => firstSlot cfg B + t * cfg.slotSize),
            B :: heap.acquired)) ∧
    (allocateN cfg sysNew (slotsPerBlock cfg B + 1) pool heap).map
        (fun res => (res.1, res.2.2.acquired))
      = some ((List.range (slotsPerBlock cfg B)).map
            (fun t => firstSlot cfg B + t * cfg.slotSize) ++ [firstSlot cfg C],
          C :: B :: heap.acquired) := by
  have hS := hv.size_pos
  have hbg := hv.block_ge
  have hAS := hv.align_le_size
  have hfs : pool.freeSlots_ = 0 :=
    allocateN_freeSlots cfg sysNew k defaultConstruct heap0 ps pool heap rfl hrun
  have hr := hs.inRange _ _ h1
  obtain ⟨_, f2, _⟩ := firstSlot_bounds hv (hs.aligned _ _ h1) hr
  have hm := slotsPerBlock_eq hv (hs.aligned _ _ h1) hr
  have hpos : 1 ≤ slotsPerBlock cfg B := by
    rw [hm]
    exact (Nat.le_div_iff_mul_le hS).mpr (by omega)
  refine ⟨?_, hpos, ?_, ?_, ?_⟩
  · intro B0 hB0
    rw [allocate_block hv hs defaultConstruct heap0 1 0 rfl (le_refl _)
      (by rw [h0]; exact hB0), h0]
    rfl
  · exact Nat.div_le_div_right (Nat.sub_le _ _)
  · intro j hj1 hj2
    obtain ⟨i, rfl⟩ : ∃ i, j = i + 1 := ⟨j - 1, by omega⟩
    rw [allocateN_in_block hv hs pool heap hfs hc h1 i hj2]
    rfl
  · obtain ⟨i, hi⟩ : ∃ i, slotsPerBlock cfg B = i + 1 := ⟨slotsPerBlock cfg B - 1, by omega⟩
    have hfull := allocateN_in_block hv hs pool heap hfs hc h1 i (by omega)
    have hdm := Nat.div_add_mod (B + cfg.BlockSize - firstSlot cfg B) cfg.slotSize
    have hml := Nat.mod_lt (B + cfg.BlockSize - firstSlot cfg B) hS
    rw [← hm, hi] at hdm
    have e3 : cfg.slotSize * (i + 1) = (1 + i) * cfg.slotSize := by
      rw [Nat.mul_comm, Nat.add_comm]
    rw [e3] at hdm
    have hlast := allocate_block hv hs
      { currentBlock_ := B, currentSlot_ := firstSlot cfg B + (1 + i) * cfg.slotSize,
        lastSlot_ := B + cfg.BlockSize - cfg.slotSize + 1, freeSlots_ := 0 }
      { next := store heap.next B pool.currentBlock_, acquired := B :: heap.acquired }
      1 0 (B := C) rfl
      (by show B + cfg.BlockSize - cfg.slotSize + 1 ≤ firstSlot cfg B + (1 + i) * cfg.slotSize
          omega)
      (by show sysNew (B :: heap.acquired).length = some C
          exact h2)
    have hone := allocateN_succ_some cfg sysNew 0 hlast
    simp only [allocateN, Option.map_some'] at hone
    have hall := allocateN_add cfg sysNew (i + 1) 1 pool heap _ _ _ _ _ _ hfull hone
    rw [hi, hall]
    rfl

theorem block_yields_slots_witness :
    (∀ B0, sysPages 0 = some B0 →
      (allocate cfg64 sysPages defaultConstruct heapZero 1 0).map (fun res => res.2.2.acquired)
        = some [B0]) ∧
    1 ≤ slotsPerBlock cfg64 4096 ∧
    slotsPerBlock cfg64 4096 ≤ (cfg64.BlockSize - cfg64.ptrSize) / cfg64.slotSize ∧
    (∀ j, 1 ≤ j → j ≤ slotsPerBlock cfg64 4096 →
      (allocateN cfg64 sysPages j defaultConstruct heapZero).map
          (fun res => (res.1, res.2.2.acquired))
        = some ((List.range j).map (fun t => firstSlot cfg64 4096 + t * cfg64.slotSize),
            4096 :: heapZero.acquired)) ∧
    (allocateN cfg64 sysPages (slotsPerBlock cfg64 4096 + 1) defaultConstruct heapZero).map
        (fun res => (res.1, res.2.2.acquired))
      = some ((List.range (slotsPerBlock cfg64 4096)).map
            (fun t => firstSlot cfg64 4096 + t * cfg64.slotSize) ++ [firstSlot cfg64 8192],
          8192 :: 4096 :: heapZero.acquired) :=
  block_yields_slots cfg64_valid sysPages_valid heapZero rfl 0 [] defaultConstruct heapZero rfl
    (by decide) rfl rfl

theorem slotsPerBlock_example : slotsPerBlock cfg64 4096 = 3 ∧ firstSlot cfg64 4096 = 4104 := by
  decide

/-! ### The states of a slot -/

/-- In a state reached within the contract the invariant holds with a free
list that, together with the live slots, holds exactly the slots issued. -/
theorem ReachableTracked.invIssued {cfg : Config} {sysNew : SysNew} (hv : cfg.Valid)
    (hs : SysNew.Valid cfg sysNew) {pool : Pool} {heap : Heap} {live issued : List Nat}
    (r : ReachableTracked cfg sysNew pool heap live issued) :
    ∃ fl, Inv cfg sysNew pool heap live fl ∧ ∀ a, a ∈ issued ↔ a ∈ live ++ fl := by
  induction r with
  | fresh heap h => exact ⟨[], Inv.fresh heap h, fun a => by simp⟩
  | @alloc pool heap live issued n hint p pool1 heap1 r h ih =>
    obtain ⟨fl, inv, hiss⟩ := ih
    by_cases hfs : pool.freeSlots_ = 0
    · by_cases hc : pool.currentSlot_ < pool.lastSlot_
      · rw [allocate_bump cfg sysNew pool heap n hint hfs hc] at h
        obtain ⟨_, _, hinv⟩ := inv.bump hv hs hc
        cases h
        refine ⟨fl, hinv, fun a => ?_⟩
        simp only [List.cons_append, List.mem_cons, hiss a]
      · have hc1 : pool.lastSlot_ ≤ pool.currentSlot_ := Nat.le_of_not_lt hc
        cases hn : sysNew heap.acquired.length with
        | none =>
          rw [allocate_throw cfg sysNew pool heap n hint hfs hc1 hn] at h
          cases h
        | some B =>
          rw [allocate_block hv hs pool heap n hint hfs hc1 hn] at h
          obtain ⟨_, hinv⟩ := inv.block hv hs hfs hn
          cases h
          refine ⟨fl, hinv, fun a => ?_⟩
          simp only [List.cons_append, List.mem_cons, hiss a]
    · rw [allocate_pop cfg sysNew pool heap n hint hfs] at h
      obtain ⟨fl1, hfl, _, hinv⟩ := inv.pop hfs
      cases h
      refine ⟨fl1, hinv, fun a => ?_⟩
      simp only [List.cons_append, List.mem_cons, hiss a, hfl, List.mem_append]
      constructor
      · rintro (h1 | h1 | h1 | h1)
        · exact Or.inl h1
        · exact Or.inr (Or.inl h1)
        · exact Or.inl h1
        · exact Or.inr (Or.inr h1)
      · rintro (h1 | h1 | h1)
        · exact Or.inl h1
        · exact Or.inr (Or.inl h1)
        · exact Or.inr (Or.inr (Or.inr h1))
  | @dealloc pool heap live issued p n r hp ih =>
    obtain ⟨fl, inv, hiss⟩ := ih
    have hperm : List.Perm (live.erase p ++ p :: fl) (live ++ fl) :=
      List.perm_middle.trans ((List.perm_cons_erase hp).symm.append_right fl)
    exact ⟨p :: fl, inv.dealloc hv hs n hp, fun a => (hiss a).trans hperm.mem_iff.symm⟩
  | write p v r hp ih =>
    obtain ⟨fl, inv, hiss⟩ := ih
    exact ⟨fl, inv.write hv hs v hp, hiss⟩

/-- C14: in a state reached from a fresh pool by calls of `allocate` and by
calls of `deallocate` on live slots, the slots issued so far are exactly the
live slots and the slots of the free list, and no slot is both; the free list
is a chain without repetition from its head to `nullptr`, and no slot of it
lies at or after the cursor in the current block. -/
theorem issued_live_or_free {cfg : Config} {sysNew : SysNew} (hv : cfg.Valid)
    (hs : SysNew.Valid cfg sysNew) {pool : Pool} {heap : Heap} {live issued : List Nat}
    (r : ReachableTracked cfg sysNew pool heap live issued) :
    ∃ fl, chainFrom heap.next pool.freeSlots_ fl ∧ fl.Nodup ∧ live.Nodup ∧
      (∀ a ∈ fl, a ∉ live) ∧
      (∀ a, a ∈ issued ↔ (a ∈ live ∨ a ∈ fl)) ∧
      (∀ a ∈ fl, ¬ (pool.currentSlot_ ≤ a ∧ a < pool.currentBlock_ + cfg.BlockSize)) := by
  obtain ⟨fl, inv, hiss⟩ := r.invIssued hv hs
  have hnd := List.nodup_append.mp inv.nodup
  refine ⟨fl, inv.free, hnd.2.1, hnd.1, fun a ha hl => hnd.2.2 hl ha,
    fun a => (hiss a).trans List.mem_append, ?_⟩
  intro a ha hcon
  obtain ⟨hca, hab⟩ := hcon
  obtain ⟨B, hB, hin, hlt⟩ := inv.slots a (List.mem_append_right _ ha)
  have hS := hv.size_pos
  have hP := hv.ptr_pos
  cases hacq : heap.acquired with
  | nil => rw [hacq] at hB; cases hB
  | cons B0 rest =>
    obtain ⟨c1, _, _⟩ := inv.cursorSome B0 rest hacq
    have hcb : pool.currentBlock_ = B0 := by
      have := inv.blocks
      rw [hacq] at this
      exact (chainFrom_cons.mp this).1
    have hB0 : B0 ∈ heap.acquired := by rw [hacq]; exact List.mem_cons_self _ _
    obtain ⟨i, _, hi⟩ := log_mem inv.log hB
    obtain ⟨j, _, hj⟩ := log_mem inv.log hB0
    unfold InBlock at hin
    rcases blocks_apart hs hi hj with e | e | e
    · have := hlt (by rw [e, hcb])
      omega
    · omega
    · omega

theorem reachableTracked_example :
    ReachableTracked cfg64 sysPages (deallocate poolA2 heapA 4104 1).1
      (deallocate poolA2 heapA 4104 1).2 [4120] [4120, 4104] :=
  ReachableTracked.dealloc 4104 1
    (ReachableTracked.alloc 1 0
      (ReachableTracked.alloc 1 0 (ReachableTracked.fresh heapZero rfl) allocate_fresh_example)
      allocate_second_example) (by decide)

theorem issued_live_or_free_witness :
    ∃ fl, chainFrom (deallocate poolA2 heapA 4104 1).2.next
        (deallocate poolA2 heapA 4104 1).1.freeSlots_ fl ∧ fl.Nodup ∧ [4120].Nodup ∧
      (∀ a ∈ fl, a ∉ [4120]) ∧
      (∀ a, a ∈ [4120, 4104] ↔ (a ∈ [4120] ∨ a ∈ fl)) ∧
      (∀ a ∈ fl, ¬ ((deallocate poolA2 heapA 4104 1).1.currentSlot_ ≤ a ∧
        a < (deallocate poolA2 heapA 4104 1).1.currentBlock_ + cfg64.BlockSize)) :=
  issued_live_or_free cfg64_valid sysPages_valid reachableTracked_example

theorem ReachableTracked.toLive {cfg : Config} {sysNew : SysNew} {pool : Pool} {heap : Heap}
    {live issued : List Nat} (r : ReachableTracked cfg sysNew pool heap live issued) :
    ReachableLive cfg sysNew pool heap live := by
  induction r with
  | fresh heap h => exact ReachableLive.fresh heap h
  | alloc n hint r h ih => exact ReachableLive.alloc n hint ih h
  | dealloc p n r hp ih => exact ReachableLive.dealloc p n ih hp
  | write p v r hp ih => exact ReachableLive.write p v ih hp

/-! ### Alignment of the slots -/

theorem deallocate_nonnull (pool : Pool) (heap : Heap) {p : Nat} (n : Nat) (hp : p ≠ 0) :
    deallocate pool heap p n
      = ({ pool with freeSlots_ := p },
         { heap with next := store heap.next p pool.freeSlots_ }) := by
  simp [deallocate, hp]

theorem deallocate_null (pool : Pool) (heap : Heap) (n : Nat) :
    deallocate pool heap 0 n = (pool, heap) := by
  simp [deallocate]

/-- In a state reached within the contract, every live slot and every slot of
the free list lies a whole number of slot sizes after the first slot of an
acquired block. -/
theorem ReachableLive.slotsOf {cfg : Config} {sysNew : SysNew} (hv : cfg.Valid)
    (hs : SysNew.Valid cfg sysNew) {pool : Pool} {heap : Heap} {live : List Nat}
    (r : ReachableLive cfg sysNew pool heap live) :
    ∃ fl, Inv cfg sysNew pool heap live fl ∧ CursorInv cfg sysNew pool heap ∧
      ∀ a ∈ live ++ fl, ∃ B ∈ heap.acquired, SlotOf cfg B a := by
  induction r with
  | fresh heap h =>
    exact ⟨[], Inv.fresh heap h, CursorInv.ofFresh heap h, fun a ha => by simp at ha⟩
  | @alloc pool heap live n hint p pool1 heap1 r h ih =>
    obtain ⟨fl, inv, cur, hsl⟩ := ih
    by_cases hfs : pool.freeSlots_ = 0
    · obtain ⟨hcur, _, B, rest, k, e1, _, e3, _, e5, _⟩ := cur.bumpStep hv hs hfs h
      obtain ⟨_, _, hcase⟩ := allocate_of_empty_free cfg sysNew pool heap n hint hfs h
      have hsub : ∀ C ∈ heap.acquired, C ∈ heap1.acquired := by
        intro C hC
        rcases hcase with ⟨_, _, _, _, e⟩ | ⟨_, D, _, e, _⟩
        · rw [e]; exact hC
        · rw [e]; exact List.mem_cons_of_mem _ hC
      have hinv : Inv cfg sysNew pool1 heap1 (p :: live) fl := by
        by_cases hc : pool.currentSlot_ < pool.lastSlot_
        · rw [allocate_bump cfg sysNew pool heap n hint hfs hc] at h
          obtain ⟨_, _, hi⟩ := inv.bump hv hs hc
          cases h
          exact hi
        · have hc1 : pool.lastSlot_ ≤ pool.currentSlot_ := Nat.le_of_not_lt hc
          cases hn : sysNew heap.acquired.length with
          | none =>
            rw [allocate_throw cfg sysNew pool heap n hint hfs hc1 hn] at h
            cases h
          | some D =>
            rw [allocate_block hv hs pool heap n hint hfs hc1 hn] at h
            obtain ⟨_, hi⟩ := inv.block hv hs hfs hn
            cases h
            exact hi
      refine ⟨fl, hinv, hcur, ?_⟩
      intro a ha
      rw [List.cons_append] at ha
      rcases List.mem_cons.mp ha with e | e
      · subst e
        exact ⟨B, by rw [e1]; exact List.mem_cons_self _ _, k, e3, e5⟩
      · obtain ⟨C, hC, hslot⟩ := hsl a e
        exact ⟨C, hsub C hC, hslot⟩
    · rw [allocate_pop cfg sysNew pool heap n hint hfs] at h
      obtain ⟨fl1, hfl, _, hinv⟩ := inv.pop hfs
      cases h
      refine ⟨fl1, hinv, cur.congr rfl rfl rfl rfl, ?_⟩
      intro a ha
      have hperm : List.Perm (live ++ pool.freeSlots_ :: fl1) (pool.freeSlots_ :: live ++ fl1) :=
        List.perm_middle
      have hmem : a ∈ live ++ fl := by
        rw [hfl]
        exact hperm.mem_iff.mpr ha
      exact hsl a hmem
  | @dealloc pool heap live p n r hp ih =>
    obtain ⟨fl, inv, cur, hsl⟩ := ih
    have hp0 : p ≠ 0 := inv.slot_ne_zero hv (List.mem_append_left _ hp)
    have hperm : List.Perm (live.erase p ++ p :: fl) (live ++ fl) :=
      List.perm_middle.trans ((List.perm_cons_erase hp).symm.append_right fl)
    refine ⟨p :: fl, inv.dealloc hv hs n hp, cur.afterDeallocate p n, ?_⟩
    intro a ha
    rw [deallocate_nonnull pool heap n hp0]
    exact hsl a (hperm.mem_iff.mp ha)
  | write p v r hp ih =>
    obtain ⟨fl, inv, cur, hsl⟩ := ih
    exact ⟨fl, inv.write hv hs v hp, cur.congr rfl rfl rfl rfl, hsl⟩

/-- C15, amended: on a pool that started empty and whose `deallocate` was only
given live slots, every address that `allocate` returns is a multiple of the
alignment `A` of a slot: it lies a whole number of slot sizes after the first
slot of an acquired block, and this first slot, the block start plus the header
plus the padding, is a multiple of `A`. -/
theorem allocate_aligned {cfg : Config} {sysNew : SysNew} (hv : cfg.Valid)
    (hs : SysNew.Valid cfg sysNew) {pool : Pool} {heap : Heap} {live : List Nat}
    (r : ReachableLive cfg sysNew pool heap live) {n hint p : Nat} {pool1 : Pool}
    {heap1 : Heap} (h : allocate cfg sysNew pool heap n hint = some (p, pool1, heap1)) :
    cfg.slotAlign ∣ p ∧
    ∃ B ∈ heap1.acquired,
      firstSlot cfg B = B + cfg.ptrSize + padPointer cfg (B + cfg.ptrSize) cfg.slotAlign ∧
      cfg.slotAlign ∣ firstSlot cfg B ∧
      ∃ k, p = firstSlot cfg B + k * cfg.slotSize := by
  obtain ⟨fl, inv, _, hsl⟩ := (ReachableLive.alloc n hint r h).slotsOf hv hs
  obtain ⟨B, hB, k, e1, _⟩ := hsl p (List.mem_append_left _ (List.mem_cons_self _ _))
  obtain ⟨i, _, hi⟩ := log_mem inv.log hB
  obtain ⟨_, _, hal⟩ := firstSlot_bounds hv (hs.aligned _ _ hi) (hs.inRange _ _ hi)
  refine ⟨?_, B, hB, rfl, hal, k, e1⟩
  rw [e1]
  exact Nat.dvd_add hal (Dvd.dvd.mul_left hv.align_dvd_size k)

theorem allocate_aligned_witness :
    cfg64.slotAlign ∣ 4120 ∧
    ∃ B ∈ heapA.acquired,
      firstSlot cfg64 B = B + cfg64.ptrSize + padPointer cfg64 (B + cfg64.ptrSize) cfg64.slotAlign ∧
      cfg64.slotAlign ∣ firstSlot cfg64 B ∧
      ∃ k, 4120 = firstSlot cfg64 B + k * cfg64.slotSize :=
  allocate_aligned cfg64_valid sysPages_valid
    (ReachableLive.alloc 1 0 (ReachableLive.fresh heapZero rfl) allocate_fresh_example)
    allocate_second_example

theorem double_free_example :
    deallocate poolA heapA 4104 1 = (poolDF, heapF) ∧
    deallocate poolDF heapF 4104 1 = (poolDF, heapDF) ∧
    allocate cfg64 sysPages poolDF heapDF 1 0 = some (4104, poolDF, heapDF) ∧
    allocate cfg64 sysPages poolDF heapDFw 1 0 = some (4104, poolDF2, heapDFw) :=
  ⟨rfl, rfl, rfl, rfl⟩

/-- C15 as stated fails: the slot at 4104 is freed twice, both times an address
that `allocate` returned before; the next `allocate()` hands it out again while
it stays on the free list; the user stores the word 4105 in it; the next
`allocate()` returns 4104 once more and takes 4105 as the free-list head; and
the call after that returns 4105, which is not a multiple of the alignment 8. -/
theorem double_free_breaks_alignment :
    ReachableReturned cfg64 sysPages poolDF2 heapDFw [4104, 4104] [4104, 4104, 4104] ∧
    allocate cfg64 sysPages poolDF2 heapDFw 1 0 = some (4105, poolA, heapDFw) ∧
    cfg64.slotAlign = 8 ∧ cfg64.slotSize = 16 ∧
    ¬ cfg64.slotAlign ∣ 4105 := by
  refine ⟨?_, rfl, rfl, rfl, by decide⟩
  have r1 : ReachableReturned cfg64 sysPages poolA heapA [4104] [4104] :=
    ReachableReturned.alloc 1 0 (ReachableReturned.fresh heapZero rfl) allocate_fresh_example
  have r2 : ReachableReturned cfg64 sysPages poolDF heapF [] [4104] :=
    ReachableReturned.dealloc 4104 1 r1 (Or.inr (by decide))
  have r3 : ReachableReturned cfg64 sysPages poolDF heapDF [] [4104] :=
    ReachableReturned.dealloc 4104 1 r2 (Or.inr (by decide))
  have r4 : ReachableReturned cfg64 sysPages poolDF heapDF [4104] [4104, 4104] :=
    ReachableReturned.alloc 1 0 r3 double_free_example.2.2.1
  have r5 : ReachableReturned cfg64 sysPages poolDF heapDFw [4104] [4104, 4104] :=
    ReachableReturned.write 4104 4105 r4 (by decide)
  exact ReachableReturned.alloc 1 0 r5 double_free_example.2.2.2

end MemoryPool
